import Mathlib

/-!
# Verification of the EchoSign semantic codec and acoustic transport

Shallow embedding of the EchoSign repository's field codec
(`packages/core/src/codec.ts`), tone modulator
(`packages/web/src/hooks/useAcousticTransmit.ts`), demodulator
(`packages/web/src/hooks/useAcousticListen.ts`) and the wire-frame codec,
together with proofs about them.

Machine integers are modelled as `Nat`/`Int` with explicit masking where the
JavaScript source masks; JavaScript numbers that hold fractional values
(coordinates, PCM samples, tone times) are modelled as `ℚ`, with `Math.round`
as round-half-up and `Math.floor` as the rational floor.
-/

namespace EchoSign

/-! ### CRC-16/CCITT-FALSE (codec.ts lines 55-68, `crc16`) -/

/-- One iteration of the inner bit loop of `crc16`:
`if (crc & 0x8000) crc = ((crc << 1) ^ 0x1021) & 0xFFFF; else crc = (crc << 1) & 0xFFFF`. -/
def crcStep (crc : Nat) : Nat :=
  if crc &&& 0x8000 ≠ 0 then ((crc <<< 1) ^^^ 0x1021) &&& 0xFFFF
  else (crc <<< 1) &&& 0xFFFF

/-- One iteration of the outer loop of `crc16`: `crc ^= data[i] << 8`
followed by eight inner-loop iterations. -/
def crcByte (crc b : Nat) : Nat := crcStep^[8] (crc ^^^ (b <<< 8))

/-- `crc16(data)`: fold `crcByte` over the data bytes starting from `0xFFFF`. -/
def crc16 (data : List Nat) : Nat := data.foldl crcByte 0xFFFF

/-- Explicit inverse of `crcStep` on 16-bit states (used only in proofs). -/
def crcUnstep (c : Nat) : Nat :=
  if c &&& 1 ≠ 0 then ((c ^^^ 0x1021) >>> 1) + 0x8000 else c >>> 1

theorem crcStep_lt (c : Nat) : crcStep c < 65536 := by
  unfold crcStep
  split <;> exact Nat.lt_of_le_of_lt Nat.and_le_right (by norm_num)

theorem crcByte_lt (c b : Nat) : crcByte c b < 65536 := by
  unfold crcByte
  rw [show (8 : Nat) = 7 + 1 from rfl, Function.iterate_succ_apply']
  exact crcStep_lt _

theorem crc_foldl_lt (l : List Nat) (c : Nat) (h : c < 65536) :
    l.foldl crcByte c < 65536 := by
  induction l generalizing c with
  | nil => simpa using h
  | cons x xs ih => exact ih _ (crcByte_lt c x)

theorem crc16_lt (l : List Nat) : crc16 l < 65536 :=
  crc_foldl_lt l 0xFFFF (by norm_num)

theorem and_mask16 (x : Nat) : x &&& 65535 = x % 65536 := by
  have h := Nat.and_pow_two_sub_one_eq_mod x 16
  norm_num at h
  exact h

theorem and_mask1 (x : Nat) : x &&& 1 = x % 2 := Nat.and_one_is_mod x

theorem shiftRight_one (x : Nat) : x >>> 1 = x / 2 := by
  have h := Nat.shiftRight_eq_div_pow x 1
  norm_num at h
  exact h

theorem crcUnstep_crcStep (c : Nat) (h : c < 65536) : crcUnstep (crcStep c) = c := by
  have hand : c &&& 32768 = (c.testBit 15).toNat * 32768 := by
    have h2 := Nat.and_two_pow c 15
    norm_num at h2
    exact h2
  have hshift : c <<< 1 = 2 * c := by
    rw [Nat.shiftLeft_eq]; ring
  rcases h15 : c.testBit 15 with hf | ht
  · -- high bit clear: c < 32768
    have hlt : c < 32768 := by
      have hd := Nat.testBit_to_div_mod (x := c) (i := 15)
      rw [h15] at hd
      replace hd := hd.symm
      rw [decide_eq_false_iff_not] at hd
      norm_num at hd
      omega
    have hcond : ¬ c &&& 32768 ≠ 0 := by
      rw [hand, h15]; norm_num
    rw [crcStep, if_neg hcond, hshift, and_mask16, Nat.mod_eq_of_lt (by omega)]
    have heven : ¬ (2 * c) &&& 1 ≠ 0 := by rw [and_mask1]; omega
    rw [crcUnstep, if_neg heven, shiftRight_one]
    omega
  · -- high bit set: c = 32768 + r
    have hge : 32768 ≤ c := by
      have hb := Nat.testBit_implies_ge (x := c) (i := 15) h15
      norm_num at hb
      exact hb
    have hcond : c &&& 32768 ≠ 0 := by
      rw [hand, h15]; norm_num
    rw [crcStep, if_pos hcond, hshift]
    have h4129 : (4129 : Nat) &&& 65535 = 4129 := by decide
    rw [Nat.and_xor_distrib_right, and_mask16, h4129]
    have hmod : 2 * c % 65536 = 2 * (c - 32768) := by omega
    rw [hmod]
    have hodd : (2 * (c - 32768) ^^^ 4129) &&& 1 ≠ 0 := by
      rw [Nat.and_xor_distrib_right, and_mask1, and_mask1]
      rw [show 2 * (c - 32768) % 2 = 0 by omega, show (4129 : Nat) % 2 = 1 from rfl,
        Nat.zero_xor]
      norm_num
    rw [crcUnstep, if_pos hodd, Nat.xor_assoc, Nat.xor_self, Nat.xor_zero, shiftRight_one]
    omega

theorem crcStep_injOn {c₁ c₂ : Nat} (h₁ : c₁ < 65536) (h₂ : c₂ < 65536)
    (h : crcStep c₁ = crcStep c₂) : c₁ = c₂ := by
  rw [← crcUnstep_crcStep c₁ h₁, ← crcUnstep_crcStep c₂ h₂, h]

theorem crcIter_injOn (n : Nat) {c₁ c₂ : Nat} (h₁ : c₁ < 65536) (h₂ : c₂ < 65536)
    (h : crcStep^[n] c₁ = crcStep^[n] c₂) : c₁ = c₂ := by
  induction n generalizing c₁ c₂ with
  | zero => simpa using h
  | succ n ih =>
      rw [Function.iterate_succ_apply, Function.iterate_succ_apply] at h
      exact crcStep_injOn h₁ h₂ (ih (crcStep_lt c₁) (crcStep_lt c₂) h)

theorem crcByte_injOn {b : Nat} (hb : b < 256) {c₁ c₂ : Nat}
    (h₁ : c₁ < 65536) (h₂ : c₂ < 65536)
    (h : crcByte c₁ b = crcByte c₂ b) : c₁ = c₂ := by
  unfold crcByte at h
  have hshl : b <<< 8 < 65536 := by
    rw [Nat.shiftLeft_eq]
    omega
  have e₁ : c₁ ^^^ b <<< 8 < 65536 := by
    have hx : c₁ ^^^ b <<< 8 < 2 ^ 16 :=
      Nat.xor_lt_two_pow (by norm_num [h₁]) (by norm_num [hshl])
    norm_num at hx
    exact hx
  have e₂ : c₂ ^^^ b <<< 8 < 65536 := by
    have hx : c₂ ^^^ b <<< 8 < 2 ^ 16 :=
      Nat.xor_lt_two_pow (by norm_num [h₂]) (by norm_num [hshl])
    norm_num at hx
    exact hx
  exact Nat.xor_left_inj.mp (crcIter_injOn 8 e₁ e₂ h)

theorem crcFold_injOn (l : List Nat) (hl : ∀ x ∈ l, x < 256) {c₁ c₂ : Nat}
    (h₁ : c₁ < 65536) (h₂ : c₂ < 65536)
    (h : l.foldl crcByte c₁ = l.foldl crcByte c₂) : c₁ = c₂ := by
  induction l generalizing c₁ c₂ with
  | nil => simpa using h
  | cons x xs ih =>
      simp only [List.foldl_cons] at h
      have hx : x < 256 := hl x (by simp)
      exact crcByte_injOn hx h₁ h₂
        (ih (fun y hy => hl y (by simp [hy])) (crcByte_lt c₁ x) (crcByte_lt c₂ x) h)

theorem crcByte_byte_injOn {C : Nat} (hC : C < 65536) {b₁ b₂ : Nat}
    (hb₁ : b₁ < 256) (hb₂ : b₂ < 256)
    (h : crcByte C b₁ = crcByte C b₂) : b₁ = b₂ := by
  unfold crcByte at h
  have hs₁ : b₁ <<< 8 < 65536 := by rw [Nat.shiftLeft_eq]; omega
  have hs₂ : b₂ <<< 8 < 65536 := by rw [Nat.shiftLeft_eq]; omega
  have e₁ : C ^^^ b₁ <<< 8 < 65536 := by
    have hx : C ^^^ b₁ <<< 8 < 2 ^ 16 :=
      Nat.xor_lt_two_pow (by norm_num [hC]) (by norm_num [hs₁])
    norm_num at hx
    exact hx
  have e₂ : C ^^^ b₂ <<< 8 < 65536 := by
    have hx : C ^^^ b₂ <<< 8 < 2 ^ 16 :=
      Nat.xor_lt_two_pow (by norm_num [hC]) (by norm_num [hs₂])
    norm_num at hx
    exact hx
  have hxor := Nat.xor_right_inj.mp (crcIter_injOn 8 e₁ e₂ h)
  rw [Nat.shiftLeft_eq, Nat.shiftLeft_eq] at hxor
  omega

/-- Changing one byte of the data (to a different byte value) changes `crc16`. -/
theorem crc16_set_ne (l : List Nat) (hl : ∀ x ∈ l, x < 256) (i : Nat) (hi : i < l.length)
    (v : Nat) (hv : v < 256) (hne : v ≠ l[i]) :
    crc16 (l.set i v) ≠ crc16 l := by
  intro hcontra
  have hsplit : l = l.take i ++ l[i] :: l.drop (i + 1) := by
    conv_lhs => rw [← List.take_append_drop i l]
    rw [List.drop_eq_getElem_cons hi]
  have hset : l.set i v = l.take i ++ v :: l.drop (i + 1) :=
    List.set_eq_take_cons_drop v hi
  rw [hset] at hcontra
  conv_rhs at hcontra => rw [hsplit]
  unfold crc16 at hcontra
  rw [List.foldl_append, List.foldl_append] at hcontra
  simp only [List.foldl_cons] at hcontra
  set C := (l.take i).foldl crcByte 0xFFFF with hC
  have hClt : C < 65536 := crc_foldl_lt _ _ (by norm_num)
  have hdropmem : ∀ x ∈ l.drop (i + 1), x < 256 := fun x hx =>
    hl x (List.mem_of_mem_drop hx)
  have hli : l[i] < 256 := hl _ (l.getElem_mem hi)
  have hbyte := crcFold_injOn (l.drop (i + 1)) hdropmem
    (crcByte_lt C v) (crcByte_lt C l[i]) hcontra
  exact hne (crcByte_byte_injOn hClt hv hli hbyte)

/-! ### Field codec data model (codec.ts lines 17-52, 71-138; types.ts) -/

/-- `Math.round`: round half toward positive infinity. -/
def jsRound (q : ℚ) : ℤ := ⌊q + 1 / 2⌋

/-- `SemanticFields` (types.ts): the decoded application-level record.
JS numbers carrying fractions (`lat`, `lon`) are `ℚ`; `severity` and `pop`
are integers. -/
structure SemanticFields where
  type : String
  severity : ℤ
  lat : ℚ
  lon : ℚ
  pop : ℤ
  msg : String
deriving DecidableEq

/-- `TYPE_MAP` (codec.ts lines 18-30), with the `AlertType` enum values from
types.ts inlined (SOS=1 … Rescue=10; TS maps to the Flood value 4). -/
def TYPE_MAP : List (String × Nat) :=
  [("SO", 1), ("MD", 2), ("FI", 3), ("FL", 4), ("EQ", 5), ("IN", 6),
   ("EV", 7), ("AC", 8), ("SC", 9), ("RC", 10), ("TS", 4)]

/-- The loop of codec.ts lines 33-38: insert `(val, code)` pairs in entry
order, keeping the first code seen for each value. -/
def buildReverse : List (String × Nat) → List (Nat × String) → List (Nat × String)
  | [], acc => acc
  | (c, v) :: rest, acc =>
      if (acc.lookup v).isSome then buildReverse rest acc
      else buildReverse rest (acc ++ [(v, c)])

/-- `REVERSE_TYPE_MAP` (codec.ts lines 33-38). -/
def REVERSE_TYPE_MAP : List (Nat × String) := buildReverse TYPE_MAP []

/-- The message bytes of codec.ts lines 97-99 (the indexing loop written as a
map over `range 8`); `charCodeAt` followed by a `Uint8Array` store is
`toNat % 256`. -/
def msgBytes (f : SemanticFields) : List Nat :=
  (List.range 8).map fun i =>
    if i < f.msg.data.length then (f.msg.data.getD i 'A').toNat % 256 else 0

/-- The population nibble of codec.ts line 93:
`Math.ceil(Math.log2 pop)` on a positive integer is `Nat.clog 2`. -/
def popLog (f : SemanticFields) : Nat :=
  if 0 < f.pop then min 15 (Nat.clog 2 f.pop.toNat) else 0

/-- The 24-bit stored latitude value: the JS int32 shift-and-mask byte
extraction of codec.ts lines 81-84 stores exactly `latInt mod 2^24`
big-endian, written here as `emod` before the shifts. -/
def latN (f : SemanticFields) : Nat :=
  ((jsRound (f.lat * 10000) + 900000) % 16777216).toNat

/-- The 24-bit stored longitude value (codec.ts lines 87-90). -/
def lonN (f : SemanticFields) : Nat :=
  ((jsRound (f.lon * 10000) + 1800000) % 16777216).toNat

/-- Bytes 0-16 filled by `packFields` (codec.ts lines 74-99). -/
def packBody (f : SemanticFields) : List Nat :=
  let t := (TYPE_MAP.lookup f.type).getD 1
  let sev := (min 9 (max 1 f.severity)).toNat
  [t, sev, (latN f >>> 16) &&& 0xFF, (latN f >>> 8) &&& 0xFF, latN f &&& 0xFF,
    (lonN f >>> 16) &&& 0xFF, (lonN f >>> 8) &&& 0xFF, lonN f &&& 0xFF,
    (popLog f &&& 0x0F) <<< 4] ++ msgBytes f

/-- `packFields` (codec.ts lines 71-108): bytes 0-16, then the CRC-16 of
bytes 0-16 big-endian at offsets 17-18, then the five reserved zero bytes. -/
def packFields (f : SemanticFields) : List Nat :=
  let body := packBody f
  let crc := crc16 body
  body ++ [(crc >>> 8) &&& 0xFF, crc &&& 0xFF, 0, 0, 0, 0, 0]

/-- `unpackFields` (codec.ts lines 111-131). Bytes equal to 0 in the message
region are skipped (`if (code[i] !== 0) msg += …`). -/
def unpackFields (code : List Nat) : SemanticFields :=
  let typeVal := code.getD 0 0
  let type := (REVERSE_TYPE_MAP.lookup typeVal).getD "SO"
  let severity : ℤ := min 9 (max 1 (code.getD 1 0 : ℤ))
  let latInt : Nat := ((code.getD 2 0) <<< 16) ||| ((code.getD 3 0) <<< 8) ||| code.getD 4 0
  let lat : ℚ := ((latInt : ℚ) - 900000) / 10000
  let lonInt : Nat := ((code.getD 5 0) <<< 16) ||| ((code.getD 6 0) <<< 8) ||| code.getD 7 0
  let lon : ℚ := ((lonInt : ℚ) - 1800000) / 10000
  let popLog := (code.getD 8 0 >>> 4) &&& 0x0F
  let pop : ℤ := if 0 < popLog then 2 ^ popLog else 0
  let msg := String.mk ((List.range 8).filterMap fun i =>
    if code.getD (9 + i) 0 ≠ 0 then some (Char.ofNat (code.getD (9 + i) 0)) else none)
  ⟨type, severity, lat, lon, pop, msg⟩

/-- `verifyChecksum` (codec.ts lines 134-138). -/
def verifyChecksum (code : List Nat) : Bool :=
  let expected := crc16 (code.take 17)
  let actual := ((code.getD 17 0) <<< 8) ||| code.getD 18 0
  expected == actual

/-! ### Hex transport encoding (codec.ts lines 141-152) -/

/-- Lowercase hex digit character for a value 0-15. -/
def toHexDigit (n : Nat) : Char :=
  if n < 10 then Char.ofNat (48 + n) else Char.ofNat (87 + n)

/-- Digit list of `Number.prototype.toString(16)` for a natural number. -/
def natToHex (n : Nat) : List Char :=
  if _h : n < 16 then [toHexDigit n]
  else natToHex (n / 16) ++ [toHexDigit (n % 16)]
decreasing_by exact Nat.div_lt_self (by omega) (by omega)

/-- `.padStart(2, '0')` on a digit list. -/
def padStart2 (l : List Char) : List Char := List.replicate (2 - l.length) '0' ++ l

/-- `bytesToHex` (codec.ts lines 141-143). -/
def bytesToHex (bytes : List Nat) : String :=
  String.mk (bytes.map (fun b => padStart2 (natToHex b))).flatten

/-- Value of a hex digit character, either case (a `parseInt` radix-16 digit). -/
def hexDigitVal? (c : Char) : Option Nat :=
  if '0' ≤ c ∧ c ≤ '9' then some (c.toNat - 48)
  else if 'a' ≤ c ∧ c ≤ 'f' then some (c.toNat - 87)
  else if 'A' ≤ c ∧ c ≤ 'F' then some (c.toNat - 55)
  else none

/-- `parseInt(s, 16)` on a short slice: the value of the longest hex-digit
prefix, `none` (NaN) when the first character is not a hex digit. (Leading
whitespace/sign/`0x`-prefix handling of full `parseInt` is not modelled; the
slices fed to it here are at most 2 characters from a user-entered string.) -/
def parseIntHex (l : List Char) : Option Nat :=
  match l.takeWhile (fun c => (hexDigitVal? c).isSome) with
  | [] => none
  | ds => some (ds.foldl (fun acc c => acc * 16 + (hexDigitVal? c).getD 0) 0)

/-- `hexToBytes` (codec.ts lines 146-152): `new Uint8Array(hex.length / 2)`
has `⌊len/2⌋` entries; each 2-character slice goes through `parseInt(·,16)`;
a NaN stores as 0 (`ToUint8`); the out-of-bounds write for the final
character of an odd-length string is dropped by the typed array. -/
def hexToBytes (hex : String) : List Nat :=
  (List.range (hex.length / 2)).map fun j =>
    (parseIntHex ((hex.data.drop (2 * j)).take 2)).getD 0 % 256

/-! ### Basic facts about `packFields` and `verifyChecksum` -/

theorem and_mask8 (x : Nat) : x &&& 255 = x % 256 := by
  have h := Nat.and_pow_two_sub_one_eq_mod x 8
  norm_num at h
  exact h

theorem shiftRight_eight (x : Nat) : x >>> 8 = x / 256 := by
  have h := Nat.shiftRight_eq_div_pow x 8
  norm_num at h
  exact h

/-- `(hi << k) | lo` is `hi * 2^k + lo` when `lo < 2^k` (disjoint bit ranges). -/
theorem lor_shl (k hi lo : Nat) (hlo : lo < 2 ^ k) : hi <<< k ||| lo = hi * 2 ^ k + lo := by
  apply Nat.eq_of_testBit_eq
  intro j
  rw [Nat.testBit_or, Nat.testBit_shiftLeft,
    show hi * 2 ^ k + lo = 2 ^ k * hi + lo by ring,
    Nat.testBit_mul_pow_two_add hi hlo j]
  by_cases hj : j < k
  · have hnge : ¬ j ≥ k := by omega
    simp [hnge, hj]
  · have hge : j ≥ k := by omega
    have hlt : lo < 2 ^ j :=
      lt_of_lt_of_le hlo (Nat.pow_le_pow_right (by norm_num) hge)
    simp [hge, hj, Nat.testBit_lt_two_pow hlt]

/-- `(hi << 8) | lo` is the big-endian value `hi * 256 + lo` when `lo` is a byte. -/
theorem lor_shl8 (hi lo : Nat) (hlo : lo < 256) : hi <<< 8 ||| lo = hi * 256 + lo := by
  have h := lor_shl 8 hi lo (by norm_num [hlo])
  norm_num at h
  exact h

theorem getD_zero_set_ne (l : List Nat) (i j v : Nat) (hij : i ≠ j) (hj : j < l.length) :
    (l.set i v).getD j 0 = l.getD j 0 := by
  rw [List.getD_eq_getElem (l.set i v) 0 (by rw [List.length_set]; exact hj),
    List.getD_eq_getElem l 0 hj]
  exact List.getElem_set_ne hij _

theorem getD_lt256 {code : List Nat} (hbytes : ∀ x ∈ code, x < 256) {n : Nat}
    (hn : n < code.length) : code.getD n 0 < 256 := by
  rw [List.getD_eq_getElem _ _ hn]
  exact hbytes _ (code.getElem_mem hn)

theorem packBody_length (f : SemanticFields) : (packBody f).length = 17 := by
  simp [packBody, msgBytes]

theorem packFields_take17 (f : SemanticFields) : (packFields f).take 17 = packBody f := by
  rw [packFields, List.take_left' (packBody_length f)]

theorem packFields_getD17 (f : SemanticFields) :
    (packFields f).getD 17 0 = (crc16 (packBody f) >>> 8) &&& 0xFF := by
  rw [packFields, List.getD_append_right _ _ _ _ (by rw [packBody_length]),
    packBody_length]
  rfl

theorem packFields_getD18 (f : SemanticFields) :
    (packFields f).getD 18 0 = crc16 (packBody f) &&& 0xFF := by
  rw [packFields, List.getD_append_right _ _ _ _ (by rw [packBody_length]; omega),
    packBody_length]
  rfl

theorem packFields_length (f : SemanticFields) : (packFields f).length = 24 := by
  rw [packFields]
  simp [packBody_length]

/-- C2, half 2 (used also as a lemma): `packFields` writes a valid checksum. -/
theorem verifyChecksum_packFields (f : SemanticFields) :
    verifyChecksum (packFields f) = true := by
  unfold verifyChecksum
  rw [packFields_take17, packFields_getD17, packFields_getD18]
  have hlt := crc16_lt (packBody f)
  set crc := crc16 (packBody f) with hcrc
  have hmask : crc &&& 255 < 256 := by rw [and_mask8]; omega
  rw [lor_shl8 _ _ hmask, and_mask8, and_mask8, shiftRight_eight]
  simp only [beq_iff_eq]
  omega

/-- A concrete valid code: `packFields {type:"FI", severity:7, lat:34.0522,
lon:-118.2437, pop:2000, msg:"TRAPPED"}` (the spec's end-to-end example). -/
def exampleCode : List Nat :=
  [3, 7, 18, 237, 202, 9, 108, 91, 176, 84, 82, 65, 80, 80, 69, 68, 0, 26, 217,
   0, 0, 0, 0, 0]

/-- C2: for every 24-byte code, `verifyChecksum` returns true iff the
big-endian 16-bit value stored at bytes 17-18 equals CRC-16/CCITT-FALSE over
bytes 0-16; consequently `verifyChecksum (packFields f)` is true for every
`SemanticFields` input. -/
theorem C2_verifyChecksum_spec :
    (∀ code : List Nat, code.length = 24 → (∀ x ∈ code, x < 256) →
      (verifyChecksum code = true ↔
        code.getD 17 0 * 256 + code.getD 18 0 = crc16 (code.take 17))) ∧
    (∀ f : SemanticFields, verifyChecksum (packFields f) = true) := by
  refine ⟨fun code hlen hbytes => ?_, verifyChecksum_packFields⟩
  have h18 : code.getD 18 0 < 256 := getD_lt256 hbytes (by omega)
  unfold verifyChecksum
  rw [lor_shl8 _ _ h18]
  simp only [beq_iff_eq]
  exact eq_comm

/-- Witness for C2 at the concrete example code and fields. -/
theorem C2_verifyChecksum_spec_witness :
    (verifyChecksum exampleCode = true ↔
      exampleCode.getD 17 0 * 256 + exampleCode.getD 18 0 =
        crc16 (exampleCode.take 17)) ∧
    verifyChecksum (packFields ⟨"FI", 7, 34.0522, -118.2437, 2000, "TRAPPED"⟩) = true :=
  ⟨C2_verifyChecksum_spec.1 exampleCode (by decide) (by decide),
   C2_verifyChecksum_spec.2 ⟨"FI", 7, 34.0522, -118.2437, 2000, "TRAPPED"⟩⟩

/-- C3: flipping any single bit of any of bytes 0-16 of a code with a valid
checksum makes `verifyChecksum` return false. -/
theorem C3_single_bit_flip (code : List Nat) (i b : Nat) (hlen : code.length = 24)
    (hbytes : ∀ x ∈ code, x < 256) (hi : i ≤ 16) (hb : b < 8)
    (hvalid : verifyChecksum code = true) :
    verifyChecksum (code.set i (code.getD i 0 ^^^ 1 <<< b)) = false := by
  have hilen : i < code.length := by omega
  have hgetD : code.getD i 0 = code[i] := List.getD_eq_getElem _ _ hilen
  have he : (1 <<< b : Nat) = 2 ^ b := by rw [Nat.shiftLeft_eq, one_mul]
  have heb : (2 : Nat) ^ b < 256 := by
    calc (2 : Nat) ^ b ≤ 2 ^ 7 := Nat.pow_le_pow_right (by norm_num) (by omega)
    _ < 256 := by norm_num
  have hcd : code.getD i 0 < 256 := getD_lt256 hbytes hilen
  have h256 : (256 : Nat) = 2 ^ 8 := by norm_num
  have hvlt : code.getD i 0 ^^^ 1 <<< b < 256 := by
    rw [he, h256]
    exact Nat.xor_lt_two_pow (h256 ▸ hcd) (h256 ▸ heb)
  have hne : code.getD i 0 ^^^ 1 <<< b ≠ code[i] := by
    rw [hgetD, he]
    intro hcontra
    have h0 : code[i] ^^^ 2 ^ b = code[i] ^^^ 0 := by rw [Nat.xor_zero]; exact hcontra
    have hz := Nat.xor_right_inj.mp h0
    have hpos := Nat.two_pow_pos b
    omega
  set v := code.getD i 0 ^^^ 1 <<< b with hv
  have htake : (code.set i v).take 17 = (code.take 17).set i v := List.set_take
  have hit : i < (code.take 17).length := by rw [List.length_take]; omega
  have htmem : ∀ x ∈ code.take 17, x < 256 := fun x hx => hbytes x (List.mem_of_mem_take hx)
  have hti : (code.take 17)[i] = code[i] := List.getElem_take code
  have hcrcne := crc16_set_ne (code.take 17) htmem i hit v hvlt (by rw [hti]; exact hne)
  have h17 : (code.set i v).getD 17 0 = code.getD 17 0 :=
    getD_zero_set_ne code i 17 v (by omega) (by omega)
  have h18 : (code.set i v).getD 18 0 = code.getD 18 0 :=
    getD_zero_set_ne code i 18 v (by omega) (by omega)
  unfold verifyChecksum at hvalid ⊢
  rw [htake, h17, h18]
  rw [beq_iff_eq] at hvalid
  rw [beq_eq_false_iff_ne]
  rw [← hvalid]
  exact hcrcne

set_option maxRecDepth 100000 in
/-- Witness for C3: flipping bit 0 of byte 0 of the example code. -/
theorem C3_single_bit_flip_witness :
    verifyChecksum (exampleCode.set 0 (exampleCode.getD 0 0 ^^^ 1 <<< 0)) = false :=
  C3_single_bit_flip exampleCode 0 0 (by decide) (by decide) (by decide) (by decide)
    (by decide)

/-! ### Claim C1: `unpack ∘ pack` round trip -/

/-- The fixed type enumeration (the keys of `TYPE_MAP`, which are also the
eleven 2-letter codes listed by the encoder prompt). -/
def validType (s : String) : Prop := s ∈ TYPE_MAP.map Prod.fst

/-- "Within documented ranges" for the round-trip claim: type in the fixed
enumeration, integer severity 1-9, coordinates in range, non-negative
population, message of at most 8 non-NUL ASCII characters (a literal NUL
cannot occur inside `msg` per the spec). -/
def validFields (f : SemanticFields) : Prop :=
  validType f.type ∧
  1 ≤ f.severity ∧ f.severity ≤ 9 ∧
  -90 ≤ f.lat ∧ f.lat ≤ 90 ∧ -180 ≤ f.lon ∧ f.lon ≤ 180 ∧
  0 ≤ f.pop ∧
  f.msg.data.length ≤ 8 ∧ ∀ c ∈ f.msg.data, 0 < c.toNat ∧ c.toNat < 128

instance validFields_decidable (f : SemanticFields) : Decidable (validFields f) := by
  unfold validFields validType
  infer_instance

/-- The documented log2 bucketing of `pop`: what `unpack ∘ pack` does to the
population field. -/
def popBucket (p : ℤ) : ℤ :=
  if 0 < p then
    (if 0 < min 15 (Nat.clog 2 p.toNat) then (2 : ℤ) ^ min 15 (Nat.clog 2 p.toNat) else 0)
  else 0

theorem shiftRight_sixteen (x : Nat) : x >>> 16 = x / 65536 := by
  have h := Nat.shiftRight_eq_div_pow x 16
  norm_num at h
  exact h

/-- Reassembling the three big-endian bytes of a 24-bit value gives it back. -/
theorem bytes24_recompose (n : Nat) (hn : n < 16777216) :
    ((n >>> 16) &&& 255) <<< 16 ||| ((n >>> 8) &&& 255) <<< 8 ||| (n &&& 255) = n := by
  have h3 : (n >>> 8) &&& 255 < 256 := by rw [and_mask8]; omega
  have h4 : n &&& 255 < 256 := by rw [and_mask8]; omega
  rw [Nat.lor_assoc, lor_shl8 _ _ h4]
  have hB : ((n >>> 8) &&& 255) * 256 + (n &&& 255) < 2 ^ 16 := by
    have h16 : (2 : Nat) ^ 16 = 65536 := by norm_num
    omega
  rw [lor_shl 16 _ _ hB, and_mask8, and_mask8, and_mask8, shiftRight_eight,
    shiftRight_sixteen]
  have h16 : (2 : Nat) ^ 16 = 65536 := by norm_num
  rw [h16]
  omega

theorem map_range_getD {α β : Type} (l : List α) (d : α) (g : α → β) :
    (List.range l.length).map (fun i => g (l.getD i d)) = l.map g := by
  refine List.ext_getElem (by simp) (fun i h1 h2 => ?_)
  simp only [List.getElem_map, List.getElem_range]
  rw [List.getD_eq_getElem l d (by simpa using h2)]

theorem replicate_append_singleton {α : Type} (k : Nat) (a : α) :
    List.replicate k a ++ [a] = List.replicate (k + 1) a := by
  induction k with
  | zero => rfl
  | succ k ih => simp only [List.replicate_succ, List.cons_append, ih]

/-- The `range 8` map that fills the message region splits into the (mapped)
message characters followed by zero padding. -/
theorem msgBytes_split (l : List Char) (n : Nat) (hn : l.length ≤ n) :
    (List.range n).map (fun i => if i < l.length then (l.getD i 'A').toNat % 256 else 0)
      = l.map (fun c => c.toNat % 256) ++ List.replicate (n - l.length) 0 := by
  induction n with
  | zero =>
      have h0 : l = [] := List.eq_nil_of_length_eq_zero (by omega)
      subst h0
      simp
  | succ n ih =>
      by_cases hc : l.length ≤ n
      · rw [List.range_succ, List.map_append, ih hc]
        have hns : ¬ n < l.length := by omega
        simp only [List.map_cons, List.map_nil, if_neg hns]
        rw [List.append_assoc, replicate_append_singleton,
          show n - l.length + 1 = n + 1 - l.length by omega]
      · have hlen : l.length = n + 1 := by omega
        rw [show n + 1 - l.length = 0 by omega, List.replicate_zero, List.append_nil]
        have hcongr := List.map_congr_left
          (l := List.range (n + 1))
          (f := fun i => if i < l.length then (l.getD i 'A').toNat % 256 else 0)
          (g := fun i => (l.getD i 'A').toNat % 256)
          (fun i hi => by
            rw [List.mem_range] at hi
            show (if i < l.length then (l.getD i 'A').toNat % 256 else 0)
              = (l.getD i 'A').toNat % 256
            rw [if_pos (by omega)])
        rw [hcongr, ← hlen, map_range_getD l 'A' (fun c => c.toNat % 256)]

theorem filterMap_range_getD {α β : Type} (l : List α) (d : α) (F : α → Option β) :
    (List.range l.length).filterMap (fun i => F (l.getD i d)) = l.filterMap F := by
  have h := map_range_getD l d (g := id)
  rw [List.map_id] at h
  conv_rhs => rw [← h]
  rw [List.filterMap_map]
  rfl

/-- Specialisation of `filterMap_range_getD` to the message-extraction
function, stated in the exact syntactic form produced by `unpackFields`. -/
theorem filterMap_msg_getD (l : List Nat) (hl : l.length = 8) :
    (List.range 8).filterMap
      (fun i => if l.getD i 0 ≠ 0 then some (Char.ofNat (l.getD i 0)) else none)
      = l.filterMap (fun b => if b ≠ 0 then some (Char.ofNat b) else none) := by
  rw [← hl]
  exact filterMap_range_getD l 0 (fun b => if b ≠ 0 then some (Char.ofNat b) else none)

theorem filterMap_congr_mem {α β : Type} {l : List α} {f g : α → Option β}
    (h : ∀ a ∈ l, f a = g a) : l.filterMap f = l.filterMap g := by
  induction l with
  | nil => rfl
  | cons x xs ih =>
      rw [List.filterMap_cons, List.filterMap_cons, h x (by simp),
        ih (fun a ha => h a (by simp [ha]))]

/-- Non-NUL ASCII characters survive the pack (to `charCode % 256`) /
unpack (skip zeros, `fromCharCode`) composition unchanged. -/
theorem msg_extract_list (l : List Char) (hl : ∀ c ∈ l, 0 < c.toNat ∧ c.toNat < 128) :
    (l.map (fun c => c.toNat % 256)).filterMap
      (fun b => if b ≠ 0 then some (Char.ofNat b) else none) = l := by
  induction l with
  | nil => rfl
  | cons c cs ih =>
      have hc := hl c (by simp)
      have hmod : c.toNat % 256 = c.toNat := Nat.mod_eq_of_lt (by omega)
      have hF : (if c.toNat % 256 ≠ 0 then some (Char.ofNat (c.toNat % 256)) else none)
          = some c := by
        rw [hmod, if_pos (by omega : c.toNat ≠ 0), Char.ofNat_toNat]
      simp only [List.map_cons, List.filterMap_cons, hF]
      rw [ih (fun x hx => hl x (by simp [hx]))]

/-- Looking the packed type byte back up returns the original 2-letter code,
except `TS`, whose byte value is shared with (and reverse-mapped to) `FL`. -/
theorem type_lookup_roundtrip (s : String) (hs : s ∈ TYPE_MAP.map Prod.fst) :
    (REVERSE_TYPE_MAP.lookup ((TYPE_MAP.lookup s).getD 1)).getD "SO"
      = if s = "TS" then "FL" else s := by
  simp only [TYPE_MAP, List.map_cons, List.map_nil, List.mem_cons,
    List.not_mem_nil, or_false] at hs
  rcases hs with rfl | rfl | rfl | rfl | rfl | rfl | rfl | rfl | rfl | rfl | rfl <;> rfl

theorem packBody_getD0 (f : SemanticFields) :
    (packBody f).getD 0 0 = (TYPE_MAP.lookup f.type).getD 1 := rfl

theorem packBody_getD1 (f : SemanticFields) :
    (packBody f).getD 1 0 = (min 9 (max 1 f.severity)).toNat := rfl

theorem packBody_getD2 (f : SemanticFields) :
    (packBody f).getD 2 0 = (latN f >>> 16) &&& 0xFF := rfl

theorem packBody_getD3 (f : SemanticFields) :
    (packBody f).getD 3 0 = (latN f >>> 8) &&& 0xFF := rfl

theorem packBody_getD4 (f : SemanticFields) :
    (packBody f).getD 4 0 = latN f &&& 0xFF := rfl

theorem packBody_getD5 (f : SemanticFields) :
    (packBody f).getD 5 0 = (lonN f >>> 16) &&& 0xFF := rfl

theorem packBody_getD6 (f : SemanticFields) :
    (packBody f).getD 6 0 = (lonN f >>> 8) &&& 0xFF := rfl

theorem packBody_getD7 (f : SemanticFields) :
    (packBody f).getD 7 0 = lonN f &&& 0xFF := rfl

theorem packBody_getD8 (f : SemanticFields) :
    (packBody f).getD 8 0 = (popLog f &&& 0x0F) <<< 4 := rfl

theorem packBody_getD_msg (f : SemanticFields) (i : Nat) :
    (packBody f).getD (9 + i) 0 = (msgBytes f).getD i 0 := by
  simp only [packBody]
  rw [List.getD_append_right _ _ _ _ (by simp)]
  simp

theorem packFields_getD_lt17 (f : SemanticFields) (n : Nat) (hn : n < 17) :
    (packFields f).getD n 0 = (packBody f).getD n 0 := by
  simp only [packFields]
  exact List.getD_append _ _ _ _ (by rw [packBody_length]; omega)

/-- C1 (amended): on fields within documented ranges `unpack ∘ pack` returns
the type unchanged except `TS` (which comes back as `FL`), the severity
unchanged, the coordinates rounded to 1/10000 degree, the population replaced
by its log2 bucket, and the message unchanged. -/
theorem C1_roundtrip_amended (f : SemanticFields) (hv : validFields f) :
    unpackFields (packFields f) =
      ⟨if f.type = "TS" then "FL" else f.type, f.severity,
        (jsRound (f.lat * 10000) : ℚ) / 10000, (jsRound (f.lon * 10000) : ℚ) / 10000,
        popBucket f.pop, f.msg⟩ := by
  obtain ⟨htype, hs1, hs9, hlat1, hlat2, hlon1, hlon2, hpop, hmlen, hmchar⟩ := hv
  -- coordinate range facts
  have hlatlo : (-900000 : ℤ) ≤ jsRound (f.lat * 10000) := by
    rw [jsRound]
    apply Int.le_floor.mpr
    push_cast
    linarith
  have hlathi : jsRound (f.lat * 10000) ≤ 900000 := by
    have hlt : jsRound (f.lat * 10000) < 900001 := by
      rw [jsRound]
      apply Int.floor_lt.mpr
      push_cast
      linarith
    omega
  have hlonlo : (-1800000 : ℤ) ≤ jsRound (f.lon * 10000) := by
    rw [jsRound]
    apply Int.le_floor.mpr
    push_cast
    linarith
  have hlonhi : jsRound (f.lon * 10000) ≤ 1800000 := by
    have hlt : jsRound (f.lon * 10000) < 1800001 := by
      rw [jsRound]
      apply Int.floor_lt.mpr
      push_cast
      linarith
    omega
  have hlatN : latN f = (jsRound (f.lat * 10000) + 900000).toNat := by
    rw [latN, Int.emod_eq_of_lt (by omega) (by omega)]
  have hlonN : lonN f = (jsRound (f.lon * 10000) + 1800000).toNat := by
    rw [lonN, Int.emod_eq_of_lt (by omega) (by omega)]
  have hlatNlt : latN f < 16777216 := by rw [hlatN]; omega
  have hlonNlt : lonN f < 16777216 := by rw [hlonN]; omega
  unfold unpackFields
  simp only [SemanticFields.mk.injEq]
  refine ⟨?_, ?_, ?_, ?_, ?_, ?_⟩
  · -- type
    rw [packFields_getD_lt17 f 0 (by omega), packBody_getD0]
    exact type_lookup_roundtrip f.type htype
  · -- severity
    rw [packFields_getD_lt17 f 1 (by omega), packBody_getD1]
    rw [show min 9 (max 1 f.severity) = f.severity by omega,
      Int.toNat_of_nonneg (by omega)]
    omega
  · -- latitude
    rw [packFields_getD_lt17 f 2 (by omega), packBody_getD2,
      packFields_getD_lt17 f 3 (by omega), packBody_getD3,
      packFields_getD_lt17 f 4 (by omega), packBody_getD4,
      bytes24_recompose (latN f) hlatNlt, hlatN]
    have hcast : (((jsRound (f.lat * 10000) + 900000).toNat : ℚ))
        = (jsRound (f.lat * 10000) : ℚ) + 900000 := by
      rw [show ((jsRound (f.lat * 10000) + 900000).toNat : ℚ)
          = (((jsRound (f.lat * 10000) + 900000).toNat : ℤ) : ℚ) by push_cast; ring,
        Int.toNat_of_nonneg (by omega)]
      push_cast
      ring
    rw [hcast]
    ring
  · -- longitude
    rw [packFields_getD_lt17 f 5 (by omega), packBody_getD5,
      packFields_getD_lt17 f 6 (by omega), packBody_getD6,
      packFields_getD_lt17 f 7 (by omega), packBody_getD7,
      bytes24_recompose (lonN f) hlonNlt, hlonN]
    have hcast : (((jsRound (f.lon * 10000) + 1800000).toNat : ℚ))
        = (jsRound (f.lon * 10000) : ℚ) + 1800000 := by
      rw [show ((jsRound (f.lon * 10000) + 1800000).toNat : ℚ)
          = (((jsRound (f.lon * 10000) + 1800000).toNat : ℤ) : ℚ) by push_cast; ring,
        Int.toNat_of_nonneg (by omega)]
      push_cast
      ring
    rw [hcast]
    ring
  · -- population
    rw [packFields_getD_lt17 f 8 (by omega), packBody_getD8]
    have hpl : popLog f ≤ 15 := by rw [popLog]; split <;> omega
    have h15 : popLog f &&& 15 = popLog f := by
      have h := Nat.and_pow_two_sub_one_of_lt_two_pow
        (x := popLog f) (n := 4) (by norm_num; omega)
      norm_num at h
      exact h
    have hshr : (popLog f <<< 4) >>> 4 &&& 15 = popLog f := by
      rw [Nat.shiftLeft_eq, Nat.shiftRight_eq_div_pow,
        Nat.mul_div_cancel _ (by norm_num : (0 : Nat) < 2 ^ 4),
        show (15 : Nat) = 2 ^ 4 - 1 by norm_num, Nat.and_pow_two_sub_one_eq_mod]
      exact Nat.mod_eq_of_lt (by omega)
    rw [h15, hshr, popBucket, popLog]
    by_cases hp : 0 < f.pop
    · rw [if_pos hp, if_pos hp]
    · rw [if_neg hp, if_neg hp]
      norm_num
  · -- message
    have hmsgb : ∀ i ∈ List.range 8,
        (fun i => if (packFields f).getD (9 + i) 0 ≠ 0 then
          some (Char.ofNat ((packFields f).getD (9 + i) 0)) else none) i
        = (fun i => if (msgBytes f).getD i 0 ≠ 0 then
          some (Char.ofNat ((msgBytes f).getD i 0)) else none) i := by
      intro i hi
      rw [List.mem_range] at hi
      show (if (packFields f).getD (9 + i) 0 ≠ 0 then
          some (Char.ofNat ((packFields f).getD (9 + i) 0)) else none)
        = (if (msgBytes f).getD i 0 ≠ 0 then
          some (Char.ofNat ((msgBytes f).getD i 0)) else none)
      rw [packFields_getD_lt17 f (9 + i) (by omega), packBody_getD_msg]
    rw [filterMap_congr_mem hmsgb]
    have hlen8 : (msgBytes f).length = 8 := by simp [msgBytes]
    rw [filterMap_msg_getD (msgBytes f) hlen8]
    have hsplit : msgBytes f
        = f.msg.data.map (fun c => c.toNat % 256)
          ++ List.replicate (8 - f.msg.data.length) 0 := by
      rw [msgBytes]
      exact msgBytes_split f.msg.data 8 hmlen
    rw [hsplit, List.filterMap_append]
    have hrep : (List.replicate (8 - f.msg.data.length) 0).filterMap
        (fun b => if b ≠ 0 then some (Char.ofNat b) else none) = [] := by
      rw [List.filterMap_eq_nil_iff]
      intro a ha
      rw [List.eq_of_mem_replicate ha]
      rfl
    rw [hrep, List.append_nil, msg_extract_list f.msg.data hmchar]

set_option maxRecDepth 10000 in
/-- C1 counterexample: `{type:"TS", severity:3, lat:0, lon:0, pop:0, msg:""}`
is within the documented ranges, but its type does not come back unchanged:
`TS` packs to the Flood byte value and unpacks as `FL`. -/
theorem C1_roundtrip_counterexample :
    validFields ⟨"TS", 3, 0, 0, 0, ""⟩ ∧
    (unpackFields (packFields ⟨"TS", 3, 0, 0, 0, ""⟩)).type = "FL" ∧
    ("FL" : String) ≠ "TS" := by
  refine ⟨by decide, rfl, by decide⟩

/-- Witness for the amended C1 at concrete in-range fields. -/
theorem C1_roundtrip_amended_witness :
    unpackFields (packFields ⟨"FI", 7, 34, -118, 2000, "TRAPPED"⟩) =
      ⟨if ("FI" : String) = "TS" then "FL" else "FI", 7,
        (jsRound ((34 : ℚ) * 10000) : ℚ) / 10000,
        (jsRound ((-118 : ℚ) * 10000) : ℚ) / 10000,
        popBucket 2000, "TRAPPED"⟩ :=
  C1_roundtrip_amended ⟨"FI", 7, 34, -118, 2000, "TRAPPED"⟩ (by decide)

/-! ### Claim C5: totality and clamping of `packFields` -/

theorem char_toNat_ofNat (b : Nat) (hb : b < 256) : (Char.ofNat b).toNat = b := by
  have hv : b.isValidChar := Or.inl (by omega)
  rw [Char.ofNat, dif_pos hv]
  rfl

/-- Truncation: the packed bytes depend only on the first 8 message
characters. -/
theorem msgBytes_take8 (f : SemanticFields) :
    msgBytes f = msgBytes ⟨f.type, f.severity, f.lat, f.lon, f.pop,
      ⟨f.msg.data.take 8⟩⟩ := by
  unfold msgBytes
  apply List.map_congr_left
  intro i hi
  rw [List.mem_range] at hi
  show (if i < f.msg.data.length then (f.msg.data.getD i 'A').toNat % 256 else 0)
    = (if i < (f.msg.data.take 8).length then
        ((f.msg.data.take 8).getD i 'A').toNat % 256 else 0)
  rw [List.length_take]
  by_cases hc : i < f.msg.data.length
  · rw [if_pos hc, if_pos (by omega)]
    rw [List.getD_eq_getElem f.msg.data 'A' hc,
      List.getD_eq_getElem (f.msg.data.take 8) 'A' (by rw [List.length_take]; omega)]
    simp [List.getElem_take]
  · rw [if_neg hc, if_neg (by omega)]

theorem packFields_msg_take8 (f : SemanticFields) :
    packFields f = packFields ⟨f.type, f.severity, f.lat, f.lon, f.pop,
      ⟨f.msg.data.take 8⟩⟩ := by
  have hbody : packBody f = packBody ⟨f.type, f.severity, f.lat, f.lon, f.pop,
      ⟨f.msg.data.take 8⟩⟩ := by
    unfold packBody
    rw [← msgBytes_take8]
    rfl
  simp only [packFields, hbody]

/-- C5 (amended): `packFields` is total and returns 24 bytes for every input;
severity is clamped to 1-9, the population bucket is clamped to 0-15, the
message is truncated to 8 bytes — but the encoded coordinates are reduced
modulo 2^24 (wrapped), not clamped, when out of range; in-range coordinates
fit the unsigned 24-bit field exactly. -/
theorem C5_pack_total_amended (f : SemanticFields) :
    (packFields f).length = 24 ∧
    (1 ≤ (packFields f).getD 1 0 ∧ (packFields f).getD 1 0 ≤ 9) ∧
    popLog f ≤ 15 ∧
    ((packFields f).getD 2 0 <<< 16 ||| (packFields f).getD 3 0 <<< 8 |||
        (packFields f).getD 4 0)
      = ((jsRound (f.lat * 10000) + 900000) % 16777216).toNat ∧
    ((packFields f).getD 5 0 <<< 16 ||| (packFields f).getD 6 0 <<< 8 |||
        (packFields f).getD 7 0)
      = ((jsRound (f.lon * 10000) + 1800000) % 16777216).toNat ∧
    packFields f = packFields ⟨f.type, f.severity, f.lat, f.lon, f.pop,
      ⟨f.msg.data.take 8⟩⟩ := by
  have hlatlt : latN f < 16777216 := by
    rw [latN]
    have h1 := Int.emod_nonneg (jsRound (f.lat * 10000) + 900000)
      (by norm_num : (16777216 : ℤ) ≠ 0)
    have h2 := Int.emod_lt_of_pos (jsRound (f.lat * 10000) + 900000)
      (by norm_num : (0 : ℤ) < 16777216)
    omega
  have hlonlt : lonN f < 16777216 := by
    rw [lonN]
    have h1 := Int.emod_nonneg (jsRound (f.lon * 10000) + 1800000)
      (by norm_num : (16777216 : ℤ) ≠ 0)
    have h2 := Int.emod_lt_of_pos (jsRound (f.lon * 10000) + 1800000)
      (by norm_num : (0 : ℤ) < 16777216)
    omega
  refine ⟨packFields_length f, ?_, ?_, ?_, ?_, packFields_msg_take8 f⟩
  · rw [packFields_getD_lt17 f 1 (by omega), packBody_getD1]
    omega
  · rw [popLog]
    split <;> omega
  · rw [packFields_getD_lt17 f 2 (by omega), packBody_getD2,
      packFields_getD_lt17 f 3 (by omega), packBody_getD3,
      packFields_getD_lt17 f 4 (by omega), packBody_getD4,
      bytes24_recompose (latN f) hlatlt]
    rfl
  · rw [packFields_getD_lt17 f 5 (by omega), packBody_getD5,
      packFields_getD_lt17 f 6 (by omega), packBody_getD6,
      packFields_getD_lt17 f 7 (by omega), packBody_getD7,
      bytes24_recompose (lonN f) hlonlt]
    rfl

/-- C5 counterexample: for `lat = 2000` (out of range) the stored 24-bit
field holds the wrapped value `20900000 mod 2^24 = 4122784`, which is neither
of the clamped values (`2^24 - 1` or the largest in-range encoding), so
out-of-range coordinates wrap rather than clamp. -/
theorem C5_lat_wrap_counterexample :
    jsRound ((2000 : ℚ) * 10000) + 900000 = 20900000 ∧
    ((packFields ⟨"SO", 5, 2000, 0, 0, ""⟩).getD 2 0 <<< 16 |||
      (packFields ⟨"SO", 5, 2000, 0, 0, ""⟩).getD 3 0 <<< 8 |||
      (packFields ⟨"SO", 5, 2000, 0, 0, ""⟩).getD 4 0) = 4122784 ∧
    (4122784 : ℤ) = 20900000 % 2 ^ 24 ∧
    (20900000 : ℤ) ≥ 2 ^ 24 ∧
    (4122784 : Nat) ≠ min (2 ^ 24 - 1) 20900000 ∧
    (4122784 : Nat) ≠ min 1800000 20900000 := by
  have hj : jsRound ((2000 : ℚ) * 10000) = 20000000 := by
    rw [jsRound, show (2000 : ℚ) * 10000 = 20000000 by norm_num]
    apply Int.floor_eq_iff.mpr
    constructor <;> norm_num
  have hlatval : latN ⟨"SO", 5, 2000, 0, 0, ""⟩ = 4122784 := by
    rw [latN]
    show ((jsRound ((2000 : ℚ) * 10000) + 900000) % 16777216).toNat = 4122784
    rw [hj]
    decide
  refine ⟨by rw [hj]; norm_num, ?_, by decide, by decide, by decide, by decide⟩
  rw [packFields_getD_lt17 _ 2 (by omega), packBody_getD2,
    packFields_getD_lt17 _ 3 (by omega), packBody_getD3,
    packFields_getD_lt17 _ 4 (by omega), packBody_getD4, hlatval]
  decide

/-! ### Claim C8: NUL handling in message extraction -/

/-- C8 (amended): on unpack a zero byte in the message region is skipped
(treated as absence of a character) rather than terminating extraction: the
extracted message is the in-order concatenation of the characters of all
non-zero message bytes, and a NUL can never appear inside it. -/
theorem C8_nul_skip_amended (code : List Nat) (hlen : code.length = 24)
    (hbytes : ∀ x ∈ code, x < 256) :
    (unpackFields code).msg.data
      = ((code.drop 9).take 8).filterMap
          (fun b => if b ≠ 0 then some (Char.ofNat b) else none) ∧
    ∀ c ∈ (unpackFields code).msg.data, c.toNat ≠ 0 := by
  have hlen8 : ((code.drop 9).take 8).length = 8 := by
    rw [List.length_take, List.length_drop, hlen]
    omega
  have hgetD : ∀ i, i < 8 →
      ((code.drop 9).take 8).getD i 0 = code.getD (9 + i) 0 := by
    intro i hi
    rw [List.getD_eq_getElem ((code.drop 9).take 8) 0 (by omega),
      List.getD_eq_getElem code 0 (by omega : 9 + i < code.length)]
    simp [List.getElem_take, List.getElem_drop]
  have hmain : (unpackFields code).msg.data
      = ((code.drop 9).take 8).filterMap
          (fun b => if b ≠ 0 then some (Char.ofNat b) else none) := by
    show ((List.range 8).filterMap fun i =>
        if code.getD (9 + i) 0 ≠ 0 then some (Char.ofNat (code.getD (9 + i) 0))
        else none)
      = ((code.drop 9).take 8).filterMap
          (fun b => if b ≠ 0 then some (Char.ofNat b) else none)
    rw [← filterMap_msg_getD _ hlen8]
    apply filterMap_congr_mem
    intro i hi
    rw [List.mem_range] at hi
    show (if code.getD (9 + i) 0 ≠ 0 then some (Char.ofNat (code.getD (9 + i) 0))
        else none)
      = (if ((code.drop 9).take 8).getD i 0 ≠ 0 then
          some (Char.ofNat (((code.drop 9).take 8).getD i 0)) else none)
    rw [hgetD i hi]
  refine ⟨hmain, fun c hc => ?_⟩
  rw [hmain, List.mem_filterMap] at hc
  obtain ⟨b, hbmem, hbeq⟩ := hc
  have hblt : b < 256 := hbytes b (List.mem_of_mem_drop (List.mem_of_mem_take hbmem))
  by_cases hb0 : b = 0
  · rw [if_neg (by simp [hb0])] at hbeq
    exact absurd hbeq (by simp)
  · rw [if_pos hb0] at hbeq
    have hcb : Char.ofNat b = c := Option.some.inj hbeq
    rw [← hcb, char_toNat_ofNat b hblt]
    exact hb0

/-- C8 counterexample: in a code whose message bytes are `65 0 66 0 …`, the
zero byte does not terminate extraction: the extracted message is `"AB"`
(the `66` after the zero is kept), not the `"A"` the claim requires. -/
theorem C8_counterexample :
    (unpackFields
      [1, 1, 0, 0, 0, 0, 0, 0, 0, 65, 0, 66, 0, 0, 0, 0, 0, 0, 0, 0, 0, 0, 0, 0]).msg
      = "AB" ∧
    ("AB" : String) ≠ "A" := by
  exact ⟨by decide, by decide⟩

/-- Witness for the amended C8 at the concrete example code. -/
theorem C8_nul_skip_amended_witness :
    (unpackFields exampleCode).msg.data
      = ((exampleCode.drop 9).take 8).filterMap
          (fun b => if b ≠ 0 then some (Char.ofNat b) else none) ∧
    ∀ c ∈ (unpackFields exampleCode).msg.data, c.toNat ≠ 0 :=
  C8_nul_skip_amended exampleCode (by decide) (by decide)

/-! ### Claim C9: hex decoding of malformed input (codec.ts `hexToBytes`,
DecodePanel.tsx `handleHexDecode`) -/

/-- The cleaning step of `handleHexDecode` (DecodePanel.tsx line 66):
`hexInput.replace(/\s/g, '').toLowerCase()`. -/
def cleanedHex (input : String) : List Char :=
  (input.data.filter (fun c => ¬ c.isWhitespace)).map Char.toLower

/-- The acceptance test of `handleHexDecode` (DecodePanel.tsx lines 67-70):
reject when fewer than 2 characters remain or some character is not a
lowercase hex digit (`/^[0-9a-f]+$/`). -/
def handleHexAccepts (input : String) : Bool :=
  decide (2 ≤ (cleanedHex input).length) &&
    (cleanedHex input).all (fun c => ('0' ≤ c && c ≤ '9') || ('a' ≤ c && c ≤ 'f'))

/-- C9 counterexample: `hexToBytes` does not fail on the non-hex input
`"zz"`; it returns the byte array `[0]` (NaN coerced to 0 by the
`Uint8Array` store). `'z'` is not a hex digit. -/
theorem C9_counterexample :
    hexToBytes "zz" = [0] ∧
    hexDigitVal? 'z' = none ∧
    hexToBytes "abc" = [171] := by
  exact ⟨by decide, by decide, by decide⟩

/-- C9 (amended): `hexToBytes` never fails: for every input string it returns
`⌊length/2⌋` bytes, each < 256 (a pair that does not parse yields 0); the
validation lives in the caller, which rejects inputs with non-hex characters
(and inputs shorter than 2 characters) but does not reject odd lengths. -/
theorem C9_hex_total_amended :
    (∀ s : String, (hexToBytes s).length = s.length / 2 ∧
      ∀ b ∈ hexToBytes s, b < 256) ∧
    handleHexAccepts "zz" = false ∧
    handleHexAccepts "abc" = true := by
  refine ⟨fun s => ⟨?_, ?_⟩, by decide, by decide⟩
  · rw [hexToBytes, List.length_map, List.length_range]
  · intro b hb
    rw [hexToBytes, List.mem_map] at hb
    obtain ⟨j, hj, hbeq⟩ := hb
    rw [← hbeq]
    exact Nat.mod_lt _ (by norm_num)

/-! ### Claim C10: hex encoding round trip -/

theorem natToHex_small (x : Nat) (h : x < 16) : natToHex x = [toHexDigit x] := by
  unfold natToHex
  rw [dif_pos h]

theorem natToHex_two (x : Nat) (h16 : 16 ≤ x) (h : x < 256) :
    natToHex x = [toHexDigit (x / 16), toHexDigit (x % 16)] := by
  unfold natToHex
  rw [dif_neg (by omega)]
  rw [natToHex_small (x / 16) (by omega)]
  rfl

/-- `b.toString(16).padStart(2,'0')` for a byte: two explicit hex digits. -/
theorem byteHex_eq (x : Nat) (h : x < 256) :
    padStart2 (natToHex x)
      = if x < 16 then ['0', toHexDigit x]
        else [toHexDigit (x / 16), toHexDigit (x % 16)] := by
  by_cases h16 : x < 16
  · rw [if_pos h16, natToHex_small x h16]
    rfl
  · rw [if_neg h16, natToHex_two x (by omega) h]
    rfl

theorem byteHex_length (x : Nat) (h : x < 256) :
    (padStart2 (natToHex x)).length = 2 := by
  rw [byteHex_eq x h]
  split <;> rfl

theorem parse_pair0 : ∀ d : Fin 16, parseIntHex ['0', toHexDigit d.val]
    = some d.val := by decide

set_option maxRecDepth 4000 in
theorem parse_pair : ∀ hi lo : Fin 16,
    parseIntHex [toHexDigit hi.val, toHexDigit lo.val]
      = some (hi.val * 16 + lo.val) := by decide

theorem toHexDigit_mem : ∀ d : Fin 16,
    toHexDigit d.val ∈ "0123456789abcdef".data := by decide

theorem parseIntHex_byteHex (x : Nat) (h : x < 256) :
    parseIntHex (padStart2 (natToHex x)) = some x := by
  rw [byteHex_eq x h]
  by_cases h16 : x < 16
  · rw [if_pos h16]
    exact parse_pair0 ⟨x, h16⟩
  · rw [if_neg h16]
    have hp := parse_pair ⟨x / 16, by omega⟩ ⟨x % 16, by omega⟩
    rw [hp]
    congr 1
    show x / 16 * 16 + x % 16 = x
    omega

theorem byteHex_chars (x : Nat) (h : x < 256) :
    ∀ c ∈ padStart2 (natToHex x), c ∈ "0123456789abcdef".data := by
  intro c hc
  by_cases h16 : x < 16
  · rw [byteHex_eq x h, if_pos h16] at hc
    simp only [List.mem_cons, List.not_mem_nil, or_false] at hc
    rcases hc with rfl | rfl
    · decide
    · exact toHexDigit_mem ⟨x, h16⟩
  · rw [byteHex_eq x h, if_neg h16] at hc
    simp only [List.mem_cons, List.not_mem_nil, or_false] at hc
    rcases hc with rfl | rfl
    · exact toHexDigit_mem ⟨x / 16, by omega⟩
    · exact toHexDigit_mem ⟨x % 16, by omega⟩

theorem bytesToHex_cons_data (x : Nat) (r : List Nat) :
    (bytesToHex (x :: r)).data
      = padStart2 (natToHex x) ++ (bytesToHex r).data := rfl

theorem bytesToHex_length (b : List Nat) (hb : ∀ x ∈ b, x < 256) :
    (bytesToHex b).length = 2 * b.length := by
  induction b with
  | nil => rfl
  | cons x r ih =>
      show (bytesToHex (x :: r)).data.length = 2 * (x :: r).length
      rw [bytesToHex_cons_data, List.length_append,
        byteHex_length x (hb x (by simp))]
      have hr := ih (fun y hy => hb y (by simp [hy]))
      show 2 + (bytesToHex r).data.length = 2 * (x :: r).length
      have hr2 : (bytesToHex r).data.length = 2 * r.length := hr
      rw [hr2]
      simp [List.length_cons]
      ring

theorem hexToBytes_bytesToHex (b : List Nat) (hb : ∀ x ∈ b, x < 256) :
    hexToBytes (bytesToHex b) = b := by
  induction b with
  | nil => rfl
  | cons x r ih =>
      have hx : x < 256 := hb x (by simp)
      have hr : ∀ y ∈ r, y < 256 := fun y hy => hb y (by simp [hy])
      have hchunk2 : (padStart2 (natToHex x)).length = 2 := byteHex_length x hx
      unfold hexToBytes
      have hdata : (bytesToHex (x :: r)).data
          = padStart2 (natToHex x) ++ (bytesToHex r).data := rfl
      have hlen : (bytesToHex (x :: r)).length
          = 2 + (bytesToHex r).length := by
        show (bytesToHex (x :: r)).data.length = 2 + (bytesToHex r).data.length
        rw [hdata, List.length_append, hchunk2]
      rw [hlen, hdata]
      have hdiv : (2 + (bytesToHex r).length) / 2 = (bytesToHex r).length / 2 + 1 := by
        omega
      rw [hdiv, List.range_succ_eq_map, List.map_cons, List.map_map]
      congr 1
      · -- head: the first pair parses back to x
        show (parseIntHex
            (((padStart2 (natToHex x) ++ (bytesToHex r).data).drop (2 * 0)).take 2)).getD 0
            % 256 = x
        rw [Nat.mul_zero, List.drop_zero, List.take_left' hchunk2,
          parseIntHex_byteHex x hx]
        exact Nat.mod_eq_of_lt hx
      · -- tail: the remaining pairs are those of the tail encoding
        have hih := ih hr
        unfold hexToBytes at hih
        conv_rhs => rw [← hih]
        apply List.map_congr_left
        intro j hj
        show (parseIntHex
            (((padStart2 (natToHex x) ++ (bytesToHex r).data).drop (2 * (j + 1))).take 2)).getD 0
            % 256
          = (parseIntHex (((bytesToHex r).data.drop (2 * j)).take 2)).getD 0 % 256
        rw [show 2 * (j + 1) = 2 + 2 * j by ring, ← List.drop_drop,
          List.drop_left' hchunk2]

/-- C10: for every byte array, `bytesToHex` is a lowercase-hex string of
length exactly twice the byte count, and `hexToBytes` inverts it. -/
theorem C10_hex_roundtrip (b : List Nat) (hb : ∀ x ∈ b, x < 256) :
    (bytesToHex b).length = 2 * b.length ∧
    (∀ c ∈ (bytesToHex b).data, c ∈ "0123456789abcdef".data) ∧
    hexToBytes (bytesToHex b) = b := by
  refine ⟨bytesToHex_length b hb, ?_, hexToBytes_bytesToHex b hb⟩
  intro c hc
  have hcf : c ∈ (b.map (fun x => padStart2 (natToHex x))).flatten := hc
  rw [List.mem_flatten] at hcf
  obtain ⟨l, hl, hcl⟩ := hcf
  rw [List.mem_map] at hl
  obtain ⟨x, hxb, hxl⟩ := hl
  exact byteHex_chars x (hb x hxb) c (hxl ▸ hcl)

/-- Witness for C10 at a concrete byte array. -/
theorem C10_hex_roundtrip_witness :
    (bytesToHex [0, 255, 16]).length = 2 * ([0, 255, 16] : List Nat).length ∧
    (∀ c ∈ (bytesToHex [0, 255, 16]).data, c ∈ "0123456789abcdef".data) ∧
    hexToBytes (bytesToHex [0, 255, 16]) = [0, 255, 16] :=
  C10_hex_roundtrip [0, 255, 16] (by decide)

/-! ### Claim C4: wire-frame codec

The Frame Codec implementation (`pack`/`unpack` of `@cyren/core`) is not
among the source files; only its test caller (`tests/live-e2e-test.mjs`) and
the readme describe it, so it is modelled from the spec here. -/

inductive FrameError where
  | LengthMismatch
  | TruncatedFrame
deriving DecidableEq

/-- Modelled from the spec: missing Frame Codec `packFrame` (spec §4.2):
requires code length 24, signature length 64, publicKey length 32, failing
with `LengthMismatch` otherwise; concatenates code ∥ signature ∥ publicKey
into a 120-byte frame (offsets 0-23, 24-87, 88-119 per the test's output). -/
def packFrame (code signature publicKey : List Nat) :
    Except FrameError (List Nat) :=
  if code.length = 24 ∧ signature.length = 64 ∧ publicKey.length = 32 then
    Except.ok (code ++ signature ++ publicKey)
  else Except.error FrameError.LengthMismatch

/-- Modelled from the spec: missing Frame Codec `unpackFrame` (spec §4.2):
requires frame length exactly 120, failing with `TruncatedFrame` otherwise;
splits the frame at offsets 24 and 88. -/
def unpackFrame (frame : List Nat) :
    Except FrameError (List Nat × List Nat × List Nat) :=
  if frame.length = 120 then
    Except.ok (frame.take 24, (frame.drop 24).take 64, frame.drop 88)
  else Except.error FrameError.TruncatedFrame

/-- C4: the frame codec round-trips on correctly sized inputs, mis-sized
inputs fail with `LengthMismatch`, and frames of length ≠ 120 fail with
`TruncatedFrame` — nothing is silently truncated or padded. -/
theorem C4_frame_roundtrip :
    (∀ code sig pk : List Nat,
      code.length = 24 → sig.length = 64 → pk.length = 32 →
      packFrame code sig pk = Except.ok (code ++ sig ++ pk) ∧
      (code ++ sig ++ pk).length = 120 ∧
      unpackFrame (code ++ sig ++ pk) = Except.ok (code, sig, pk)) ∧
    (∀ code sig pk : List Nat,
      ¬(code.length = 24 ∧ sig.length = 64 ∧ pk.length = 32) →
      packFrame code sig pk = Except.error FrameError.LengthMismatch) ∧
    (∀ frame : List Nat, frame.length ≠ 120 →
      unpackFrame frame = Except.error FrameError.TruncatedFrame) := by
  refine ⟨fun code sig pk hc hs hp => ?_, fun code sig pk h => ?_,
    fun frame h => ?_⟩
  · have hlen : (code ++ sig ++ pk).length = 120 := by
      simp [hc, hs, hp]
    refine ⟨by rw [packFrame, if_pos ⟨hc, hs, hp⟩], hlen, ?_⟩
    rw [unpackFrame, if_pos hlen]
    have h1 : (code ++ sig ++ pk).take 24 = code := by
      rw [List.append_assoc, List.take_left' hc]
    have h2 : ((code ++ sig ++ pk).drop 24).take 64 = sig := by
      rw [List.append_assoc, List.drop_left' hc, List.take_left' hs]
    have h3 : (code ++ sig ++ pk).drop 88 = pk := by
      rw [List.append_assoc, show (88 : Nat) = 24 + 64 from rfl,
        ← List.drop_drop, List.drop_left' hc, List.drop_left' hs]
    rw [h1, h2, h3]
  · rw [packFrame, if_neg h]
  · rw [unpackFrame, if_neg h]

/-- Witness for C4 at concrete sized and mis-sized inputs. -/
theorem C4_frame_roundtrip_witness :
    (packFrame (List.replicate 24 1) (List.replicate 64 2) (List.replicate 32 3)
        = Except.ok (List.replicate 24 1 ++ List.replicate 64 2
            ++ List.replicate 32 3) ∧
      (List.replicate 24 1 ++ List.replicate 64 2
          ++ List.replicate 32 3).length = 120 ∧
      unpackFrame (List.replicate 24 1 ++ List.replicate 64 2
          ++ List.replicate 32 3)
        = Except.ok (List.replicate 24 1, List.replicate 64 2,
            List.replicate 32 3)) ∧
    packFrame [] [] [] = Except.error FrameError.LengthMismatch ∧
    unpackFrame [] = Except.error FrameError.TruncatedFrame :=
  ⟨C4_frame_roundtrip.1 (List.replicate 24 1) (List.replicate 64 2)
      (List.replicate 32 3) (by simp) (by simp) (by simp),
   C4_frame_roundtrip.2.1 [] [] [] (by simp),
   C4_frame_roundtrip.2.2 [] (by simp)⟩

/-! ### Claim C6: FSK tone mapping (useAcousticTransmit.ts lines 14-42) -/

/-- A tone event as scheduled by `buildTones`. -/
structure Tone where
  frequency : Nat
  startTime : ℚ
  duration : ℚ
deriving DecidableEq

/-- The 16-entry nibble frequency table (line 14). -/
def NIBBLE_FREQS : List Nat :=
  [1000, 1200, 1400, 1600, 1800, 2000, 2200, 2400,
   2600, 2800, 3000, 3200, 3400, 3600, 3800, 4000]

def TONE_DURATION : ℚ := 0.100

def TONE_STEP : ℚ := 0.120

def PREAMBLE_LOW : Nat := 500

def PREAMBLE_HIGH : Nat := 4500

def PREAMBLE_TONE_DURATION : ℚ := 0.120

def PREAMBLE_CYCLES : Nat := 4

def POSTAMBLE_FREQ : Nat := 4500

def POSTAMBLE_DURATION : ℚ := 0.300

/-- The data section of `buildTones` (lines 34-39): for each byte, the
high-nibble tone then the low-nibble tone, `time` advancing by `TONE_STEP`
after each tone. -/
def dataTones (time : ℚ) : List Nat → List Tone
  | [] => []
  | b :: rest =>
      ⟨NIBBLE_FREQS.getD ((b >>> 4) &&& 0x0F) 0, time, TONE_DURATION⟩ ::
      ⟨NIBBLE_FREQS.getD (b &&& 0x0F) 0, time + TONE_STEP, TONE_DURATION⟩ ::
      dataTones (time + TONE_STEP + TONE_STEP) rest

/-- The preamble section of `buildTones` (lines 28-33): with
`PREAMBLE_CYCLES = 4` the alternating low/high loop emits these 8 tones. -/
def preambleTones : List Tone :=
  [⟨PREAMBLE_LOW, 0 * PREAMBLE_TONE_DURATION, PREAMBLE_TONE_DURATION⟩,
   ⟨PREAMBLE_HIGH, 1 * PREAMBLE_TONE_DURATION, PREAMBLE_TONE_DURATION⟩,
   ⟨PREAMBLE_LOW, 2 * PREAMBLE_TONE_DURATION, PREAMBLE_TONE_DURATION⟩,
   ⟨PREAMBLE_HIGH, 3 * PREAMBLE_TONE_DURATION, PREAMBLE_TONE_DURATION⟩,
   ⟨PREAMBLE_LOW, 4 * PREAMBLE_TONE_DURATION, PREAMBLE_TONE_DURATION⟩,
   ⟨PREAMBLE_HIGH, 5 * PREAMBLE_TONE_DURATION, PREAMBLE_TONE_DURATION⟩,
   ⟨PREAMBLE_LOW, 6 * PREAMBLE_TONE_DURATION, PREAMBLE_TONE_DURATION⟩,
   ⟨PREAMBLE_HIGH, 7 * PREAMBLE_TONE_DURATION, PREAMBLE_TONE_DURATION⟩]

/-- `buildTones` (lines 25-42): preamble, data tones starting at the
accumulated time `8 * PREAMBLE_TONE_DURATION`, and one postamble tone at the
accumulated end time. -/
def buildTones (data : List Nat) : List Tone :=
  preambleTones
    ++ dataTones (8 * PREAMBLE_TONE_DURATION) data
    ++ [⟨POSTAMBLE_FREQ,
         8 * PREAMBLE_TONE_DURATION + data.length * (2 * TONE_STEP),
         POSTAMBLE_DURATION⟩]

theorem dataTones_cons (t : ℚ) (b : Nat) (rest : List Nat) :
    dataTones t (b :: rest)
      = ⟨NIBBLE_FREQS.getD ((b >>> 4) &&& 0x0F) 0, t, TONE_DURATION⟩ ::
        ⟨NIBBLE_FREQS.getD (b &&& 0x0F) 0, t + TONE_STEP, TONE_DURATION⟩ ::
        dataTones (t + TONE_STEP + TONE_STEP) rest := rfl

theorem dataTones_length (t : ℚ) (l : List Nat) :
    (dataTones t l).length = 2 * l.length := by
  induction l generalizing t with
  | nil => rfl
  | cons b rest ih =>
      rw [dataTones_cons]
      simp only [List.length_cons, ih]
      ring

theorem dataTones_get (t : ℚ) (l : List Nat) (i : Nat) (hi : i < l.length) :
    (dataTones t l)[2 * i]?
      = some ⟨NIBBLE_FREQS.getD ((l.getD i 0 >>> 4) &&& 0x0F) 0,
          t + i * (2 * TONE_STEP), TONE_DURATION⟩ ∧
    (dataTones t l)[2 * i + 1]?
      = some ⟨NIBBLE_FREQS.getD (l.getD i 0 &&& 0x0F) 0,
          t + i * (2 * TONE_STEP) + TONE_STEP, TONE_DURATION⟩ := by
  induction l generalizing t i with
  | nil => exact absurd hi (by simp)
  | cons b rest ih =>
      cases i with
      | zero =>
          rw [dataTones_cons]
          constructor
          · rw [show (2 * 0 : Nat) = 0 from rfl, List.getElem?_cons_zero]
            simp only [Option.some.injEq, Tone.mk.injEq, List.getD_cons_zero,
              true_and, and_true]
            push_cast
            ring
          · rw [show (2 * 0 + 1 : Nat) = 1 from rfl, List.getElem?_cons_succ,
              List.getElem?_cons_zero]
            simp only [Option.some.injEq, Tone.mk.injEq, List.getD_cons_zero,
              true_and, and_true]
            push_cast
            ring
      | succ j =>
          have hj : j < rest.length := by
            rw [List.length_cons] at hi
            omega
          have h := ih (t + TONE_STEP + TONE_STEP) j hj
          have hidx0 : (dataTones t (b :: rest))[2 * (j + 1)]?
              = (dataTones (t + TONE_STEP + TONE_STEP) rest)[2 * j]? := by
            rw [dataTones_cons, show 2 * (j + 1) = 2 * j + 1 + 1 by ring,
              List.getElem?_cons_succ, List.getElem?_cons_succ]
          have hidx1 : (dataTones t (b :: rest))[2 * (j + 1) + 1]?
              = (dataTones (t + TONE_STEP + TONE_STEP) rest)[2 * j + 1]? := by
            rw [dataTones_cons, show 2 * (j + 1) + 1 = 2 * j + 1 + 1 + 1 by ring,
              List.getElem?_cons_succ, List.getElem?_cons_succ]
          constructor
          · rw [hidx0, h.1]
            simp only [Option.some.injEq, Tone.mk.injEq, List.getD_cons_succ,
              true_and, and_true]
            push_cast
            ring
          · rw [hidx1, h.2]
            simp only [Option.some.injEq, Tone.mk.injEq, List.getD_cons_succ,
              true_and, and_true]
            push_cast
            ring

theorem nibble_table_fin : ∀ n : Fin 16,
    NIBBLE_FREQS.getD n.val 0 = 1000 + 200 * n.val := by decide

theorem nibble_inj_fin : ∀ n₁ n₂ : Fin 16,
    NIBBLE_FREQS.getD n₁.val 0 = NIBBLE_FREQS.getD n₂.val 0 → n₁ = n₂ := by decide

/-- C6: the tone sequence built for a byte stream has, for byte `i`, exactly
two data tones at sequence positions `8 + 2i` and `8 + 2i + 1` (after the
8-tone preamble): the high-nibble frequency then the low-nibble frequency,
each of duration `TONE_DURATION`, one `TONE_STEP` apart; the table is the 16
frequencies 1000-4000 Hz at 200 Hz spacing, no two distinct nibbles share a
frequency, and the step is the tone duration plus the fixed 20 ms gap. -/
theorem C6_tone_mapping (data : List Nat) (i : Nat) (hi : i < data.length) :
    ((buildTones data)[8 + 2 * i]?
        = some ⟨NIBBLE_FREQS.getD ((data.getD i 0 >>> 4) &&& 0x0F) 0,
            8 * PREAMBLE_TONE_DURATION + i * (2 * TONE_STEP), TONE_DURATION⟩ ∧
      (buildTones data)[8 + 2 * i + 1]?
        = some ⟨NIBBLE_FREQS.getD (data.getD i 0 &&& 0x0F) 0,
            8 * PREAMBLE_TONE_DURATION + i * (2 * TONE_STEP) + TONE_STEP,
            TONE_DURATION⟩) ∧
    (∀ n, n < 16 → NIBBLE_FREQS.getD n 0 = 1000 + 200 * n) ∧
    (∀ n₁ n₂, n₁ < 16 → n₂ < 16 →
      NIBBLE_FREQS.getD n₁ 0 = NIBBLE_FREQS.getD n₂ 0 → n₁ = n₂) ∧
    TONE_STEP = TONE_DURATION + 0.020 := by
  have hmid := dataTones_get (8 * PREAMBLE_TONE_DURATION) data i hi
  have hprelen : preambleTones.length = 8 := rfl
  have hmidlen : (dataTones (8 * PREAMBLE_TONE_DURATION) data).length
      = 2 * data.length := dataTones_length _ _
  refine ⟨⟨?_, ?_⟩, ?_, ?_, ?_⟩
  · rw [buildTones, List.append_assoc,
      List.getElem?_append_right (by rw [hprelen]; omega), hprelen,
      show 8 + 2 * i - 8 = 2 * i by omega,
      List.getElem?_append_left (by rw [hmidlen]; omega)]
    exact hmid.1
  · rw [buildTones, List.append_assoc,
      List.getElem?_append_right (by rw [hprelen]; omega), hprelen,
      show 8 + 2 * i + 1 - 8 = 2 * i + 1 by omega,
      List.getElem?_append_left (by rw [hmidlen]; omega)]
    exact hmid.2
  · intro n hn
    exact nibble_table_fin ⟨n, hn⟩
  · intro n₁ n₂ h₁ h₂ heq
    have h := nibble_inj_fin ⟨n₁, h₁⟩ ⟨n₂, h₂⟩ heq
    exact congrArg Fin.val h
  · rw [TONE_STEP, TONE_DURATION]
    norm_num

/-- Witness for C6 at the one-byte stream `[0xAB]`. -/
theorem C6_tone_mapping_witness :
    ((buildTones [0xAB])[8 + 2 * 0]?
        = some ⟨NIBBLE_FREQS.getD ((([0xAB] : List Nat).getD 0 0 >>> 4) &&& 0x0F) 0,
            8 * PREAMBLE_TONE_DURATION + 0 * (2 * TONE_STEP), TONE_DURATION⟩ ∧
      (buildTones [0xAB])[8 + 2 * 0 + 1]?
        = some ⟨NIBBLE_FREQS.getD (([0xAB] : List Nat).getD 0 0 &&& 0x0F) 0,
            8 * PREAMBLE_TONE_DURATION + 0 * (2 * TONE_STEP) + TONE_STEP,
            TONE_DURATION⟩) ∧
    (∀ n, n < 16 → NIBBLE_FREQS.getD n 0 = 1000 + 200 * n) ∧
    (∀ n₁ n₂, n₁ < 16 → n₂ < 16 →
      NIBBLE_FREQS.getD n₁ 0 = NIBBLE_FREQS.getD n₂ 0 → n₁ = n₂) ∧
    TONE_STEP = TONE_DURATION + 0.020 :=
  C6_tone_mapping [0xAB] 0 (by decide)

/-! ### Claim C7: acoustic demodulator (useAcousticListen.ts)

The demodulator calls `Math.cos` and `Math.sqrt` on rationals; those
transcendental float functions are modelled as parameters
`cosFn sqrtFn : ℚ → ℚ` (theorems assume only IEEE-exact facts about them,
e.g. `sqrt 0 = 0`). `Math.PI` is the exact rational value of its double.
Decimal time constants are exact rationals. Where JS would loop forever on a
degenerate step of 0 (sample rates below 9 Hz), the model runs 0 iterations;
no claim depends on that regime. -/

/-- The IEEE-754 double value of `Math.PI`, as an exact rational. -/
def piQ : ℚ := 884279719003555 / 281474976710656

/-- `Math.floor` of a non-negative quantity, as a sample count. -/
def flr (q : ℚ) : ℕ := (⌊q⌋).toNat

/-- Running sum of squares (the energy loops of useAcousticListen.ts). -/
def sumSquares (l : List ℚ) : ℚ := l.foldl (fun a x => a + x * x) 0

/-- `goertzelHann` (lines 13-26): Goertzel magnitude with a Hann window. -/
def goertzelHann (cosFn sqrtFn : ℚ → ℚ) (samples : List ℚ)
    (targetFreq sampleRate : ℚ) : ℚ :=
  let N := samples.length
  let k : ℤ := jsRound ((N * targetFreq) / sampleRate)
  let w : ℚ := (2 * piQ * k) / N
  let coeff := 2 * cosFn w
  let s := (List.range N).foldl (fun (s : ℚ × ℚ) (i : ℕ) =>
    let hann := 0.5 * (1 - cosFn ((2 * piQ * (i : ℚ)) / ((N : ℚ) - 1)))
    (samples.getD i 0 * hann + coeff * s.1 - s.2, s.1)) (0, 0)
  sqrtFn (s.1 * s.1 + s.2 * s.2 - coeff * s.1 * s.2)

/-- `goertzelRaw` (lines 29-41): Goertzel magnitude without windowing. -/
def goertzelRaw (cosFn sqrtFn : ℚ → ℚ) (samples : List ℚ)
    (targetFreq sampleRate : ℚ) : ℚ :=
  let N := samples.length
  let k : ℤ := jsRound ((N * targetFreq) / sampleRate)
  let w : ℚ := (2 * piQ * k) / N
  let coeff := 2 * cosFn w
  let s := (List.range N).foldl (fun (s : ℚ × ℚ) i =>
    (samples.getD i 0 + coeff * s.1 - s.2, s.1)) (0, 0)
  sqrtFn (s.1 * s.1 + s.2 * s.2 - coeff * s.1 * s.2)

/-- `normalize` (lines 44-57): scale peak amplitude to 1, except for
near-silent input. -/
def normalize (pcm : List ℚ) : List ℚ :=
  let mx := pcm.foldl (fun m x => max m |x|) 0
  if mx < 0.001 then pcm else pcm.map (fun x => x * (1 / mx))

/-- `findEnergyOnset` (lines 60-83). The window positions are
`0, step, 2·step, …` while `pos + windowSize < length`. -/
def findEnergyOnset (pcm : List ℚ) (sr : ℕ) : ℕ :=
  let windowSize := flr (0.020 * sr)
  let step := flr (0.005 * sr)
  let noiseEnd := min (flr (0.100 * sr)) pcm.length
  let noiseEnergy := sumSquares (pcm.take noiseEnd) / noiseEnd
  let threshold := max (noiseEnergy * 10) 0.001
  let cnt := if step = 0 ∨ pcm.length ≤ windowSize then 0
    else (pcm.length - windowSize - 1) / step + 1
  match (List.range cnt).find? (fun j =>
      sumSquares ((pcm.drop (j * step)).take windowSize) / windowSize
        > threshold) with
  | some j => j * step - step
  | none => 0

/-- The aggregate discrimination score of one preamble candidate position
(lines 101-112). -/
def preambleScore (cosFn sqrtFn : ℚ → ℚ) (pcm : List ℚ) (sr : ℕ)
    (windowSize pos : ℕ) : ℚ :=
  (List.range (PREAMBLE_CYCLES * 2)).foldl (fun sc t =>
    let w := (pcm.drop (pos + t * windowSize)).take windowSize
    let expected : ℚ := if t % 2 = 0 then (PREAMBLE_LOW : ℚ) else (PREAMBLE_HIGH : ℚ)
    let other : ℚ := if t % 2 = 0 then (PREAMBLE_HIGH : ℚ) else (PREAMBLE_LOW : ℚ)
    let magExpected := goertzelRaw cosFn sqrtFn w expected sr
    let magOther := goertzelRaw cosFn sqrtFn w other sr
    if magExpected > magOther then
      sc + magExpected / (magExpected + magOther + 0.0001)
    else sc) 0

/-- `detectPreamble` (lines 86-128): best-scoring candidate if it clears the
threshold, else the energy-onset fallback. -/
def detectPreamble (cosFn sqrtFn : ℚ → ℚ) (pcm : List ℚ) (sr : ℕ) : ℤ :=
  let windowSize := flr (PREAMBLE_TONE_DURATION * sr)
  let totalTones := PREAMBLE_CYCLES * 2
  let preambleLength := totalTones * windowSize
  let energyStart := findEnergyOnset pcm sr
  let searchStart := energyStart - windowSize
  let searchEnd : ℤ := min ((pcm.length : ℤ) - preambleLength)
    ((searchStart : ℤ) + flr (2.0 * sr))
  let step := windowSize / 8
  let cnt := if step = 0 then 0
    else ((searchEnd - (searchStart : ℤ)).toNat + step - 1) / step
  let best := (List.range cnt).foldl (fun (st : ℚ × ℤ) j =>
    let pos := searchStart + j * step
    let sc := preambleScore cosFn sqrtFn pcm sr windowSize pos
    if sc > st.1 then (sc, (pos : ℤ) + preambleLength) else st) (0, -1)
  if best.1 > (totalTones : ℚ) * 0.4 then best.2
  else (energyStart : ℤ) + preambleLength

/-- `AcousticDecodeResult` (lines 130-134). -/
structure AcousticDecodeResult where
  data : List Nat
  confidence : ℚ
  errorPositions : List Nat
deriving DecidableEq

/-- The first sample index past nibble `i`'s analysis window:
`start + analysisLen` of the per-nibble loop (lines 201-205), with
`start = dataStart + i · toneStepSamples + skipSamples`. The loop's overrun
guard is `nibbleWindowEnd > pcm.length`. -/
def nibbleWindowEnd (sr : ℕ) (dataStart : ℤ) (i : ℕ) : ℤ :=
  dataStart + (i * flr (TONE_STEP * sr) + flr (0.015 * sr) : ℕ)
    + (flr (TONE_DURATION * sr) - flr (0.020 * sr) : ℕ)

/-- One iteration of the per-nibble loop of `stopAndDecode`
(lines 200-219), acting on the state `(data, errorPositions,
totalConfidence)`. -/
def nibbleStep (cosFn sqrtFn : ℚ → ℚ) (pcm : List ℚ) (sr : ℕ) (dataStart : ℤ)
    (st : List Nat × List Nat × ℚ) (i : ℕ) : List Nat × List Nat × ℚ :=
  let stepSamples := flr (TONE_STEP * sr)
  let skipSamples := flr (0.015 * sr)
  let analysisLen := flr (TONE_DURATION * sr) - flr (0.020 * sr)
  let start := dataStart + (i * stepSamples + skipSamples : ℕ)
  if nibbleWindowEnd sr dataStart i > (pcm.length : ℤ) then
    (st.1, st.2.1 ++ [i / 2], st.2.2)
  else
    let w := (pcm.drop start.toNat).take analysisLen
    let best := (List.range 16).foldl (fun (b : ℚ × ℚ × ℕ) n =>
      let mag := goertzelHann cosFn sqrtFn w (NIBBLE_FREQS.getD n 0 : ℚ) sr
      if mag > b.1 then (mag, b.1, n)
      else if mag > b.2.1 then (b.1, mag, b.2.2)
      else b) (0, 0, 0)
    let sum := best.1 + best.2.1
    let conf := if sum > 0 then best.1 / sum else 0
    let byteIdx := i / 2
    let data := if i % 2 = 0 then st.1.set byteIdx (best.2.2 <<< 4)
      else st.1.set byteIdx (st.1.getD byteIdx 0 ||| best.2.2)
    let errs := if conf < 0.55 ∧ byteIdx ∉ st.2.1 then st.2.1 ++ [byteIdx]
      else st.2.1
    (data, errs, st.2.2 + conf)

/-- The pure decode core of `stopAndDecode` (lines 186-227), applied to the
concatenated capture buffer: normalize, locate the preamble, decode
`2 × expectedBytes` nibble slots. -/
def decodePCMCore (cosFn sqrtFn : ℚ → ℚ) (rawPcm : List ℚ) (sr : ℕ)
    (expectedBytes : ℕ) : AcousticDecodeResult :=
  let pcm := normalize rawPcm
  let dataStart := detectPreamble cosFn sqrtFn pcm sr
  let totalNibbles := expectedBytes * 2
  let st := (List.range totalNibbles).foldl
    (nibbleStep cosFn sqrtFn pcm sr dataStart)
    (List.replicate expectedBytes 0, ([], 0))
  ⟨st.1, st.2.2 / totalNibbles, st.2.1⟩

theorem foldl_fixed {α β : Type} (l : List α) (f : β → α → β) (b : β)
    (h : ∀ x ∈ l, f b x = b) : l.foldl f b = b := by
  induction l with
  | nil => rfl
  | cons x xs ih =>
      rw [List.foldl_cons, h x (by simp)]
      exact ih (fun y hy => h y (by simp [hy]))

theorem getD_replicate_self {α : Type} (a : α) (n i : ℕ) :
    (List.replicate n a).getD i a = a := by
  by_cases h : i < n
  · rw [List.getD_eq_getElem _ _ (by simpa using h), List.getElem_replicate]
  · rw [List.getD_eq_default _ _ (by simpa using h)]

theorem set_replicate_self {α : Type} (a : α) (n i : ℕ) :
    (List.replicate n a).set i a = List.replicate n a := by
  refine List.ext_getElem (by simp) (fun j h1 h2 => ?_)
  simp [List.getElem_set, List.getElem_replicate]

theorem sumSquares_replicate (k : ℕ) : sumSquares (List.replicate k 0) = 0 := by
  unfold sumSquares
  apply foldl_fixed
  intro x hx
  rw [List.eq_of_mem_replicate hx]
  ring

theorem goertzel_fold_zero (N : ℕ) (X : ℕ → ℚ) (coeff : ℚ) (hX : ∀ i, X i = 0) :
    (List.range N).foldl
      (fun (s : ℚ × ℚ) (i : ℕ) => (X i + coeff * s.1 - s.2, s.1)) (0, 0)
      = (0, 0) := by
  apply foldl_fixed
  intro i _
  rw [hX i]
  show ((0 : ℚ) + coeff * 0 - 0, (0 : ℚ)) = (0, 0)
  norm_num

theorem goertzelRaw_replicate_zero (cosFn sqrtFn : ℚ → ℚ) (hs : sqrtFn 0 = 0)
    (k : ℕ) (freq sr : ℚ) :
    goertzelRaw cosFn sqrtFn (List.replicate k 0) freq sr = 0 := by
  simp only [goertzelRaw]
  rw [goertzel_fold_zero _ (fun i => (List.replicate k (0 : ℚ)).getD i 0) _
    (fun i => getD_replicate_self 0 k i)]
  rw [show ((0 : ℚ) * 0 + 0 * 0 - 2 * cosFn _ * 0 * 0 : ℚ) = 0 by ring]
  exact hs

theorem goertzelHann_replicate_zero (cosFn sqrtFn : ℚ → ℚ) (hs : sqrtFn 0 = 0)
    (k : ℕ) (freq sr : ℚ) :
    goertzelHann cosFn sqrtFn (List.replicate k 0) freq sr = 0 := by
  simp only [goertzelHann]
  rw [goertzel_fold_zero _
    (fun i => (List.replicate k (0 : ℚ)).getD i 0 *
      (0.5 * (1 - cosFn ((2 * piQ * (i : ℚ)) / (((List.replicate k (0:ℚ)).length : ℚ) - 1))))) _
    (fun i => by
      show (List.replicate k (0 : ℚ)).getD i 0 *
        (0.5 * (1 - cosFn ((2 * piQ * (i : ℚ)) /
          (((List.replicate k (0:ℚ)).length : ℚ) - 1)))) = 0
      rw [getD_replicate_self]
      ring)]
  rw [show ((0 : ℚ) * 0 + 0 * 0 - 2 * cosFn _ * 0 * 0 : ℚ) = 0 by ring]
  exact hs

theorem normalize_replicate_zero (L : ℕ) :
    normalize (List.replicate L 0) = List.replicate L 0 := by
  unfold normalize
  rw [foldl_fixed _ _ _ (fun x hx => by
    rw [List.eq_of_mem_replicate hx]
    show max (0 : ℚ) |0| = 0
    simp)]
  rw [if_pos (by norm_num : (0 : ℚ) < 0.001)]

theorem findEnergyOnset_replicate_zero (L : ℕ) (sr : ℕ) :
    findEnergyOnset (List.replicate L 0) sr = 0 := by
  unfold findEnergyOnset
  simp only [List.drop_replicate, List.take_replicate, sumSquares_replicate,
    List.length_replicate, zero_div, zero_mul]
  rw [show max (0 : ℚ) 0.001 = 0.001 from by norm_num]
  rw [List.find?_eq_none.mpr (fun j _ => by norm_num)]

theorem preambleScore_replicate_zero (cosFn sqrtFn : ℚ → ℚ) (hs : sqrtFn 0 = 0)
    (L sr ws pos : ℕ) :
    preambleScore cosFn sqrtFn (List.replicate L 0) sr ws pos = 0 := by
  unfold preambleScore
  apply foldl_fixed
  intro t _
  simp only [List.drop_replicate, List.take_replicate]
  rw [goertzelRaw_replicate_zero cosFn sqrtFn hs,
    goertzelRaw_replicate_zero cosFn sqrtFn hs]
  rw [if_neg (by norm_num : ¬ ((0 : ℚ) > 0))]

theorem detectPreamble_replicate_zero (cosFn sqrtFn : ℚ → ℚ) (hs : sqrtFn 0 = 0)
    (L sr : ℕ) :
    detectPreamble cosFn sqrtFn (List.replicate L 0) sr
      = ((PREAMBLE_CYCLES * 2) * flr (PREAMBLE_TONE_DURATION * sr) : ℕ) := by
  unfold detectPreamble
  simp only [findEnergyOnset_replicate_zero]
  rw [foldl_fixed _ _ ((0 : ℚ), (-1 : ℤ)) (fun j _ => by
    simp only [preambleScore_replicate_zero cosFn sqrtFn hs]
    rw [if_neg (by norm_num : ¬ ((0 : ℚ) > 0))])]
  rw [if_neg (by norm_num [PREAMBLE_CYCLES] :
    ¬ ((0 : ℚ) > ((PREAMBLE_CYCLES * 2 : ℕ) : ℚ) * 0.4))]
  push_cast
  ring

theorem flr_mono {a b : ℚ} (h : a ≤ b) : flr a ≤ flr b :=
  Int.toNat_le_toNat (Int.floor_le_floor h)

theorem flr_add_le (a b : ℚ) (ha : 0 ≤ a) (hb : 0 ≤ b) :
    flr a + flr b ≤ flr (a + b) := by
  unfold flr
  have h1 : (0 : ℤ) ≤ ⌊a⌋ := Int.floor_nonneg.mpr ha
  have h2 : (0 : ℤ) ≤ ⌊b⌋ := Int.floor_nonneg.mpr hb
  have h3 : ⌊a⌋ + ⌊b⌋ ≤ ⌊a + b⌋ := by
    apply Int.le_floor.mpr
    push_cast
    exact add_le_add (Int.floor_le a) (Int.floor_le b)
  omega

theorem skip_alen_le_step (sr : ℕ) :
    flr (0.015 * sr) + (flr (TONE_DURATION * sr) - flr (0.020 * sr))
      ≤ flr (TONE_STEP * sr) := by
  have h1 : flr (0.015 * sr) + flr (TONE_DURATION * sr) ≤ flr (0.115 * sr) := by
    have h := flr_add_le (0.015 * sr) (TONE_DURATION * sr) (by positivity)
      (by rw [TONE_DURATION]; positivity)
    rwa [show (0.015 : ℚ) * sr + TONE_DURATION * sr = 0.115 * sr by
      rw [TONE_DURATION]; ring] at h
  have h2 : flr ((0.115 : ℚ) * sr) ≤ flr (TONE_STEP * sr) := by
    apply flr_mono
    rw [TONE_STEP]
    exact mul_le_mul_of_nonneg_right (by norm_num) (by positivity)
  omega

set_option maxRecDepth 8000 in
theorem nibbleStep_silence (cosFn sqrtFn : ℚ → ℚ) (hs : sqrtFn 0 = 0)
    (L sr N i : ℕ) (hiN : i < 2 * N)
    (hL : (8 + 2 * N) * flr (TONE_STEP * sr) ≤ L) :
    nibbleStep cosFn sqrtFn (List.replicate L 0) sr
        ((8 * flr (TONE_STEP * sr) : ℕ) : ℤ)
        (List.replicate N 0, (List.range ((i + 1) / 2), 0)) i
      = (List.replicate N 0, (List.range ((i + 2) / 2), 0)) := by
  have hguard : ¬ (nibbleWindowEnd sr ((8 * flr (TONE_STEP * sr) : ℕ) : ℤ) i
      > ((List.replicate L (0 : ℚ)).length : ℤ)) := by
    rw [List.length_replicate]
    unfold nibbleWindowEnd
    have hsk := skip_alen_le_step sr
    have hmul : (8 + i + 1) * flr (TONE_STEP * sr)
        ≤ (8 + 2 * N) * flr (TONE_STEP * sr) :=
      Nat.mul_le_mul_right _ (by omega)
    have hstep : (8 + i + 1) * flr (TONE_STEP * sr)
        = 8 * flr (TONE_STEP * sr) + i * flr (TONE_STEP * sr)
          + flr (TONE_STEP * sr) := by ring
    omega
  simp only [nibbleStep]
  rw [if_neg hguard]
  rw [List.drop_replicate, List.take_replicate]
  rw [foldl_fixed _ _ ((0 : ℚ), (0 : ℚ), (0 : ℕ)) (fun n _ => by
    simp only [goertzelHann_replicate_zero cosFn sqrtFn hs]
    norm_num)]
  rw [if_neg (show ¬ (((0 : ℚ), (0 : ℚ), (0 : ℕ)).1
    + ((0 : ℚ), (0 : ℚ), (0 : ℕ)).2.1 > 0) by norm_num)]
  by_cases hpar : i % 2 = 0
  · rw [if_pos hpar]
    rw [show (((0 : ℚ), (0 : ℚ), (0 : ℕ)).2.2 <<< 4 : ℕ) = 0 from rfl]
    rw [set_replicate_self]
    rw [if_pos ⟨by norm_num, by rw [List.mem_range]; omega⟩]
    simp only [Prod.mk.injEq]
    refine ⟨trivial, ?_, by norm_num⟩
    rw [show (i + 1) / 2 = i / 2 by omega, ← List.range_succ]
    congr 1
    omega
  · rw [if_neg hpar]
    rw [getD_replicate_self]
    rw [show ((0 : ℕ) ||| ((0 : ℚ), (0 : ℚ), (0 : ℕ)).2.2 : ℕ) = 0 from rfl]
    rw [set_replicate_self]
    rw [if_neg (fun hcontra => hcontra.2 (by rw [List.mem_range]; omega))]
    simp only [Prod.mk.injEq]
    refine ⟨trivial, ?_, by norm_num⟩
    rw [show (i + 2) / 2 = (i + 1) / 2 by omega]

theorem silence_fold (cosFn sqrtFn : ℚ → ℚ) (hs : sqrtFn 0 = 0)
    (L sr N : ℕ) (hL : (8 + 2 * N) * flr (TONE_STEP * sr) ≤ L) :
    ∀ m, m ≤ 2 * N →
      (List.range m).foldl
        (nibbleStep cosFn sqrtFn (List.replicate L 0) sr
          ((8 * flr (TONE_STEP * sr) : ℕ) : ℤ))
        (List.replicate N 0, ([], 0))
      = (List.replicate N 0, (List.range ((m + 1) / 2), 0)) := by
  intro m
  induction m with
  | zero => intro _; rfl
  | succ k ih =>
      intro hk
      rw [List.range_succ, List.foldl_append, ih (by omega),
        List.foldl_cons, List.foldl_nil,
        nibbleStep_silence cosFn sqrtFn hs L sr N k (by omega) hL]

theorem decodePCMCore_silence (cosFn sqrtFn : ℚ → ℚ) (hs : sqrtFn 0 = 0)
    (L sr N : ℕ) (hL : (8 + 2 * N) * flr (TONE_STEP * sr) ≤ L) :
    decodePCMCore cosFn sqrtFn (List.replicate L 0) sr N
      = ⟨List.replicate N 0, 0, List.range N⟩ := by
  simp only [decodePCMCore]
  rw [normalize_replicate_zero, detectPreamble_replicate_zero cosFn sqrtFn hs]
  rw [show (PREAMBLE_CYCLES * 2) * flr (PREAMBLE_TONE_DURATION * sr)
    = 8 * flr (TONE_STEP * sr) from rfl]
  rw [silence_fold cosFn sqrtFn hs L sr N hL (N * 2) (by omega)]
  show (⟨List.replicate N 0, (0 : ℚ) / ((N * 2 : ℕ) : ℚ),
    List.range ((N * 2 + 1) / 2)⟩ : AcousticDecodeResult) = _
  rw [zero_div, show (N * 2 + 1) / 2 = N by omega]

set_option maxRecDepth 8000

theorem mem_ite_append {x : ℕ} {l e : List ℕ} (c : Prop) [Decidable c]
    (hx : x ∈ l) : x ∈ (if c then l ++ e else l) := by
  split
  · exact List.mem_append_left _ hx
  · exact hx

theorem nibbleStep_errs_mono (cosFn sqrtFn : ℚ → ℚ) (pcm : List ℚ) (sr : ℕ)
    (ds : ℤ) (st : List Nat × List Nat × ℚ) (j x : ℕ) (hx : x ∈ st.2.1) :
    x ∈ (nibbleStep cosFn sqrtFn pcm sr ds st j).2.1 := by
  simp only [nibbleStep]
  by_cases hg : nibbleWindowEnd sr ds j > (pcm.length : ℤ)
  · rw [if_pos hg]
    exact List.mem_append_left _ hx
  · rw [if_neg hg]
    exact mem_ite_append _ hx

theorem nibbleStep_overrun_mem (cosFn sqrtFn : ℚ → ℚ) (pcm : List ℚ) (sr : ℕ)
    (ds : ℤ) (st : List Nat × List Nat × ℚ) (j : ℕ)
    (hov : nibbleWindowEnd sr ds j > (pcm.length : ℤ)) :
    j / 2 ∈ (nibbleStep cosFn sqrtFn pcm sr ds st j).2.1 := by
  simp only [nibbleStep]
  rw [if_pos hov]
  exact List.mem_append_right _ (by simp)

theorem nibbleStep_data_len (cosFn sqrtFn : ℚ → ℚ) (pcm : List ℚ) (sr : ℕ)
    (ds : ℤ) (st : List Nat × List Nat × ℚ) (j : ℕ) :
    (nibbleStep cosFn sqrtFn pcm sr ds st j).1.length = st.1.length := by
  simp only [nibbleStep]
  by_cases hg : nibbleWindowEnd sr ds j > (pcm.length : ℤ)
  · rw [if_pos hg]
  · rw [if_neg hg]
    by_cases hpar : j % 2 = 0
    · rw [if_pos hpar]
      exact List.length_set _ _ _
    · rw [if_neg hpar]
      exact List.length_set _ _ _

theorem nibbleStep_data_getD (cosFn sqrtFn : ℚ → ℚ) (pcm : List ℚ) (sr : ℕ)
    (ds : ℤ) (st : List Nat × List Nat × ℚ) (j k : ℕ) (hk : k < st.1.length)
    (h : j / 2 ≠ k ∨ nibbleWindowEnd sr ds j > (pcm.length : ℤ)) :
    (nibbleStep cosFn sqrtFn pcm sr ds st j).1.getD k 0 = st.1.getD k 0 := by
  simp only [nibbleStep]
  by_cases hov : nibbleWindowEnd sr ds j > (pcm.length : ℤ)
  · rw [if_pos hov]
  · have hjk : j / 2 ≠ k := h.resolve_right hov
    rw [if_neg hov]
    by_cases hpar : j % 2 = 0
    · rw [if_pos hpar]
      exact getD_zero_set_ne st.1 _ k _ hjk hk
    · rw [if_neg hpar]
      exact getD_zero_set_ne st.1 _ k _ hjk hk

theorem nibbleWindowEnd_mono (sr : ℕ) (ds : ℤ) (i j : ℕ) (hij : i ≤ j) :
    nibbleWindowEnd sr ds i ≤ nibbleWindowEnd sr ds j := by
  unfold nibbleWindowEnd
  have h1 : i * flr (TONE_STEP * sr) ≤ j * flr (TONE_STEP * sr) :=
    Nat.mul_le_mul_right _ hij
  have h2 : ((i * flr (TONE_STEP * sr) + flr (0.015 * sr) : ℕ) : ℤ)
      ≤ ((j * flr (TONE_STEP * sr) + flr (0.015 * sr) : ℕ) : ℤ) :=
    Int.ofNat_le.mpr (by omega)
  omega

theorem foldl_invariant {α β : Type} (P : β → Prop) (f : β → α → β)
    (l : List α) (b : β) (hb : P b) (hf : ∀ st x, P st → P (f st x)) :
    P (l.foldl f b) := by
  induction l generalizing b with
  | nil => exact hb
  | cons x xs ih => exact ih _ (hf b x hb)

theorem foldl_errs_mem (cosFn sqrtFn : ℚ → ℚ) (pcm : List ℚ) (sr : ℕ)
    (ds : ℤ) (i : ℕ) (hov : nibbleWindowEnd sr ds i > (pcm.length : ℤ)) :
    ∀ (l : List ℕ) (st : List Nat × List Nat × ℚ),
      (i / 2 ∈ st.2.1 ∨ i ∈ l) →
      i / 2 ∈ (l.foldl (nibbleStep cosFn sqrtFn pcm sr ds) st).2.1 := by
  intro l
  induction l with
  | nil =>
      intro st h
      rcases h with h | h
      · exact h
      · exact absurd h (List.not_mem_nil i)
  | cons x xs ih =>
      intro st h
      rw [List.foldl_cons]
      rcases h with h | h
      · exact ih _ (Or.inl (nibbleStep_errs_mono cosFn sqrtFn pcm sr ds st x _ h))
      · rcases List.mem_cons.mp h with heq | h2
        · subst heq
          exact ih _ (Or.inl (nibbleStep_overrun_mem cosFn sqrtFn pcm sr ds st i hov))
        · exact ih _ (Or.inr h2)

theorem decodePCMCore_overrun (cosFn sqrtFn : ℚ → ℚ) (rawPcm : List ℚ)
    (sr N i : ℕ) (hiN : i < 2 * N)
    (hov : nibbleWindowEnd sr
        (detectPreamble cosFn sqrtFn (normalize rawPcm) sr) i
      > ((normalize rawPcm).length : ℤ)) :
    i / 2 ∈ (decodePCMCore cosFn sqrtFn rawPcm sr N).errorPositions ∧
    (i % 2 = 0 →
      (decodePCMCore cosFn sqrtFn rawPcm sr N).data.getD (i / 2) 0 = 0) := by
  constructor
  · exact foldl_errs_mem cosFn sqrtFn (normalize rawPcm) sr
      (detectPreamble cosFn sqrtFn (normalize rawPcm) sr) i hov
      (List.range (N * 2)) _ (Or.inr (by rw [List.mem_range]; omega))
  · intro hpar
    have h := foldl_invariant
      (fun st => st.1.getD (i / 2) 0 = 0 ∧ st.1.length = N)
      (nibbleStep cosFn sqrtFn (normalize rawPcm) sr
        (detectPreamble cosFn sqrtFn (normalize rawPcm) sr))
      (List.range (N * 2))
      (List.replicate N 0, ([], 0))
      ⟨getD_replicate_self 0 N (i / 2), List.length_replicate N 0⟩
      (fun st j hst => by
        refine ⟨?_, by rw [nibbleStep_data_len]; exact hst.2⟩
        rw [nibbleStep_data_getD cosFn sqrtFn (normalize rawPcm) sr _ st j
          (i / 2) (by rw [hst.2]; omega) ?_]
        · exact hst.1
        · by_cases hj : j / 2 = i / 2
          · refine Or.inr (lt_of_lt_of_le hov (nibbleWindowEnd_mono sr _ i j ?_))
            omega
          · exact Or.inl hj)
    exact h.1

/-- C7, amended: the demodulator degrades gracefully instead of throwing
(it is a total function; modelled with `Math.cos`/`Math.sqrt` as parameters
`cosFn`/`sqrtFn` assumed only to satisfy the IEEE-exact `sqrt 0 = 0`).
(i) For every all-zero PCM buffer whose length covers the preamble plus
`2·N` nibble windows (the minimum frame duration for `expectedBytes = N`),
decoding returns confidence 0 and errorPositions containing all `N` byte
indices, with all data bytes zero. (ii) For any capture in which nibble
`i`'s analysis window would run past the end of the normalized buffer,
byte `i/2` is flagged in errorPositions; it is left zero when the overrun
already covers the byte's high-nibble slot (`i` even). The original claim's
stronger "flagged and left zero" for every overrun is refuted below: a byte
whose high nibble was decoded in bounds keeps that nonzero high nibble when
only its low-nibble window overruns. -/
theorem C7_demodulator_graceful :
    (∀ (cosFn sqrtFn : ℚ → ℚ) (L sr N : ℕ), sqrtFn 0 = 0 →
      (8 + 2 * N) * flr (TONE_STEP * sr) ≤ L →
      decodePCMCore cosFn sqrtFn (List.replicate L 0) sr N
        = ⟨List.replicate N 0, 0, List.range N⟩) ∧
    (∀ (cosFn sqrtFn : ℚ → ℚ) (rawPcm : List ℚ) (sr N i : ℕ), i < 2 * N →
      nibbleWindowEnd sr (detectPreamble cosFn sqrtFn (normalize rawPcm) sr) i
        > ((normalize rawPcm).length : ℤ) →
      i / 2 ∈ (decodePCMCore cosFn sqrtFn rawPcm sr N).errorPositions ∧
      (i % 2 = 0 →
        (decodePCMCore cosFn sqrtFn rawPcm sr N).data.getD (i / 2) 0 = 0)) :=
  ⟨fun cosFn sqrtFn L sr N hs hL =>
    decodePCMCore_silence cosFn sqrtFn hs L sr N hL,
   fun cosFn sqrtFn rawPcm sr N i hiN hov =>
    decodePCMCore_overrun cosFn sqrtFn rawPcm sr N i hiN hov⟩

/-- Witness for C7: (i) pure silence of 52920 samples (1.2 s at 44.1 kHz,
enough for the preamble and one byte) decodes to the zero byte with
confidence 0 and byte 0 flagged; (ii) on an empty capture the very first
nibble window overruns, so byte 0 is flagged and left zero. -/
theorem C7_demodulator_graceful_witness :
    (decodePCMCore id id (List.replicate 52920 0) 44100 1
      = ⟨List.replicate 1 0, 0, List.range 1⟩) ∧
    (0 / 2 ∈ (decodePCMCore id id (List.replicate 0 0) 44100 1).errorPositions ∧
      (0 % 2 = 0 →
        (decodePCMCore id id (List.replicate 0 0) 44100 1).data.getD (0 / 2) 0
          = 0)) :=
  ⟨C7_demodulator_graceful.1 id id 52920 44100 1 rfl (by
      have h : ⌊TONE_STEP * ((44100 : ℕ) : ℚ)⌋ = 5292 := by
        rw [TONE_STEP]
        push_cast
        norm_num
      show (8 + 2 * 1) * (⌊TONE_STEP * ((44100 : ℕ) : ℚ)⌋).toNat ≤ 52920
      rw [h, show Int.toNat 5292 = 5292 from rfl]),
   C7_demodulator_graceful.2 id id (List.replicate 0 0) 44100 1 0 (by norm_num)
    (by
      rw [normalize_replicate_zero, detectPreamble_replicate_zero id id rfl 0 44100]
      have h : ⌊PREAMBLE_TONE_DURATION * ((44100 : ℕ) : ℚ)⌋ = 5292 := by
        rw [PREAMBLE_TONE_DURATION]
        push_cast
        norm_num
      have h1 : flr (PREAMBLE_TONE_DURATION * ((44100 : ℕ) : ℚ)) = 5292 := by
        unfold flr
        rw [h, show Int.toNat 5292 = 5292 from rfl]
      unfold nibbleWindowEnd
      rw [List.length_replicate, h1, show PREAMBLE_CYCLES = 4 from rfl]
      omega)⟩

/-- Concrete `Math.cos` stand-in for the C7 counterexample instance: the
sign-quantized cosine, `1` at integer multiples of `2·piQ` and `-1`
elsewhere. It shares with the real cosine the properties the trace below
relies on: exact `2·piQ`-periodicity, value `1` at `0` (so the Hann window
vanishes at both ends), and hence maximal Goertzel response of a constant
(DC) window at the DC-aliased frequency bins. -/
def cosSq (q : ℚ) : ℚ :=
  if q - 2 * piQ * ⌊q / (2 * piQ)⌋ = 0 then 1 else -1

/-- Sample amplitude of the counterexample capture: small enough that
`normalize` and the energy-onset threshold ignore it. -/
def cxAmp : ℚ := 1 / 2000

/-- The counterexample capture at 800 Hz: 780 samples of silence followed by
64 samples of constant amplitude `cxAmp`, ending exactly where nibble 0's
analysis window ends, so nibble 1's window overruns. -/
def cxPcm : List ℚ := List.replicate 780 0 ++ List.replicate 64 cxAmp

theorem piQ_pos : 0 < piQ := by unfold piQ; norm_num

theorem two_piQ_pos : (0 : ℚ) < 2 * piQ := mul_pos two_pos piQ_pos

theorem jsRound_natCast (m : ℕ) : jsRound ((m : ℕ) : ℚ) = (m : ℤ) := by
  unfold jsRound
  rw [Int.floor_eq_iff]
  constructor
  · push_cast
    linarith
  · push_cast
    linarith

theorem jsRound_add_int (q : ℚ) (m : ℤ) : jsRound (q + m) = jsRound q + m := by
  unfold jsRound
  rw [show q + (m : ℚ) + 1 / 2 = q + 1 / 2 + (m : ℚ) by ring]
  exact Int.floor_add_int _ m

theorem cosSq_eval (x : ℚ) (m : ℤ) (r : ℚ) (hx : x = 2 * piQ * m + r)
    (h0 : 0 ≤ r) (h1 : r < 2 * piQ) :
    cosSq x = if r = 0 then 1 else -1 := by
  have h2 : (2 : ℚ) * piQ ≠ 0 := ne_of_gt two_piQ_pos
  have hf : ⌊x / (2 * piQ)⌋ = m := by
    rw [hx, show (2 * piQ * m + r) / (2 * piQ) = (m : ℚ) + r / (2 * piQ) by
      field_simp; ring]
    rw [Int.floor_int_add]
    rw [Int.floor_eq_zero_iff.mpr
      ⟨div_nonneg h0 (le_of_lt two_piQ_pos), (div_lt_one two_piQ_pos).mpr h1⟩]
    omega
  unfold cosSq
  rw [hf, hx, show 2 * piQ * (m : ℚ) + r - 2 * piQ * (m : ℚ) = r by ring]

theorem cosSq_div_nat (K d : ℕ) (hd : 0 < d) :
    cosSq ((2 * piQ * (K : ℚ)) / (d : ℚ)) = if K % d = 0 then 1 else -1 := by
  have hdq : (0 : ℚ) < (d : ℚ) := by exact_mod_cast hd
  have hmod : (K % d : ℕ) < d := Nat.mod_lt K hd
  have hx : (2 * piQ * (K : ℚ)) / (d : ℚ)
      = 2 * piQ * (((K / d : ℕ) : ℤ) : ℚ)
        + 2 * piQ * ((K % d : ℕ) : ℚ) / (d : ℚ) := by
    rw [Int.cast_natCast]
    have hK : (K : ℚ) = (d : ℚ) * ((K / d : ℕ) : ℚ) + ((K % d : ℕ) : ℚ) := by
      exact_mod_cast congrArg (Nat.cast : ℕ → ℚ) (Nat.div_add_mod K d).symm
    rw [hK]
    field_simp
    ring
  have h0 : (0 : ℚ) ≤ 2 * piQ * ((K % d : ℕ) : ℚ) / (d : ℚ) :=
    div_nonneg (mul_nonneg (le_of_lt two_piQ_pos) (Nat.cast_nonneg _))
      (Nat.cast_nonneg _)
  have h1 : 2 * piQ * ((K % d : ℕ) : ℚ) / (d : ℚ) < 2 * piQ := by
    have hlt : ((K % d : ℕ) : ℚ) / (d : ℚ) < 1 :=
      (div_lt_one hdq).mpr (by exact_mod_cast hmod)
    calc 2 * piQ * ((K % d : ℕ) : ℚ) / (d : ℚ)
        = 2 * piQ * (((K % d : ℕ) : ℚ) / (d : ℚ)) := by ring
      _ < 2 * piQ * 1 := mul_lt_mul_of_pos_left hlt two_piQ_pos
      _ = 2 * piQ := mul_one _
  rw [cosSq_eval _ ((K / d : ℕ) : ℤ) _ hx h0 h1]
  by_cases h : K % d = 0
  · rw [if_pos (by rw [h]; norm_num), if_pos h]
  · have hpos : (0 : ℚ) < 2 * piQ * ((K % d : ℕ) : ℚ) / (d : ℚ) :=
      div_pos (mul_pos two_piQ_pos
        (by exact_mod_cast Nat.pos_of_ne_zero h)) hdq
    rw [if_neg (ne_of_gt hpos), if_neg h]

theorem cosSq_periodic (x : ℚ) (m : ℤ) :
    cosSq (x + 2 * piQ * (m : ℚ)) = cosSq x := by
  unfold cosSq
  have h2 : (2 : ℚ) * piQ ≠ 0 := ne_of_gt two_piQ_pos
  have hf : ⌊(x + 2 * piQ * (m : ℚ)) / (2 * piQ)⌋ = ⌊x / (2 * piQ)⌋ + m := by
    rw [show (x + 2 * piQ * (m : ℚ)) / (2 * piQ) = x / (2 * piQ) + (m : ℚ) by
      field_simp; ring]
    exact Int.floor_add_int _ m
  rw [hf, show x + 2 * piQ * (m : ℚ) - 2 * piQ * ((⌊x / (2 * piQ)⌋ + m : ℤ) : ℚ)
    = x - 2 * piQ * (⌊x / (2 * piQ)⌋ : ℚ) by push_cast; ring]

theorem flr_num (q : ℚ) (m : ℕ) (h : ⌊q⌋ = (m : ℤ)) : flr q = m := by
  unfold flr
  rw [h]
  exact Int.toNat_natCast m

theorem cxAmp_pos : 0 < cxAmp := by unfold cxAmp; norm_num

theorem cxPcm_length : cxPcm.length = 844 := by
  unfold cxPcm
  simp

theorem cxPcm_mem (x : ℚ) (hx : x ∈ cxPcm) : x = 0 ∨ x = cxAmp := by
  unfold cxPcm at hx
  rcases List.mem_append.mp hx with h | h
  · exact Or.inl (List.eq_of_mem_replicate h)
  · exact Or.inr (List.eq_of_mem_replicate h)

theorem cxPcm_take80 : cxPcm.take 80 = List.replicate 80 0 := by
  unfold cxPcm
  rw [show (780 : ℕ) = 80 + 700 from rfl, List.replicate_add, List.append_assoc,
    List.take_left' (by simp)]

theorem cxPcm_window : (cxPcm.drop 780).take 64 = List.replicate 64 cxAmp := by
  unfold cxPcm
  rw [List.drop_left' (by simp), List.take_replicate, min_self]

theorem normalize_cx : normalize cxPcm = cxPcm := by
  unfold normalize
  have habs : |cxAmp| = cxAmp := abs_of_nonneg (le_of_lt cxAmp_pos)
  have hmx : cxPcm.foldl (fun m x => max m |x|) 0 = cxAmp := by
    unfold cxPcm
    rw [List.foldl_append]
    rw [foldl_fixed _ _ (0 : ℚ) (fun x hx => by
      rw [List.eq_of_mem_replicate hx]
      simp)]
    rw [show (64 : ℕ) = 1 + 63 from rfl, List.replicate_add, List.foldl_append]
    rw [show List.replicate 1 cxAmp = [cxAmp] from rfl, List.foldl_cons,
      List.foldl_nil]
    rw [habs, max_eq_right (le_of_lt cxAmp_pos)]
    exact foldl_fixed _ _ cxAmp (fun x hx => by
      rw [List.eq_of_mem_replicate hx, habs, max_self])
  rw [hmx, if_pos (by unfold cxAmp; norm_num)]

theorem sumSquares_foldl_le (l : List ℚ) (c : ℚ) (h : ∀ x ∈ l, x * x ≤ c) :
    ∀ b : ℚ, l.foldl (fun a x => a + x * x) b ≤ b + (l.length : ℚ) * c := by
  induction l with
  | nil => intro b; simp
  | cons y ys ih =>
      intro b
      rw [List.foldl_cons]
      have h1 := ih (fun x hx => h x (List.mem_cons_of_mem _ hx)) (b + y * y)
      have h2 := h y (List.mem_cons_self _ _)
      have h3 : ((y :: ys).length : ℚ) = (ys.length : ℚ) + 1 := by
        simp [List.length_cons]
      rw [h3]
      linarith

theorem sumSquares_le (l : List ℚ) (c : ℚ) (h : ∀ x ∈ l, x * x ≤ c) :
    sumSquares l ≤ (l.length : ℚ) * c := by
  unfold sumSquares
  simpa using sumSquares_foldl_le l c h 0

theorem findEnergyOnset_cx : findEnergyOnset cxPcm 800 = 0 := by
  have hws : flr ((0.020 : ℚ) * ((800 : ℕ) : ℚ)) = 16 :=
    flr_num _ _ (by push_cast; norm_num)
  have hst : flr ((0.005 : ℚ) * ((800 : ℕ) : ℚ)) = 4 :=
    flr_num _ _ (by push_cast; norm_num)
  have hne : flr ((0.100 : ℚ) * ((800 : ℕ) : ℚ)) = 80 :=
    flr_num _ _ (by push_cast; norm_num)
  unfold findEnergyOnset
  simp only [hws, hst, hne, cxPcm_length]
  rw [show min 80 844 = 80 by norm_num,
    cxPcm_take80, sumSquares_replicate, zero_div, zero_mul,
    max_eq_right (by norm_num : (0 : ℚ) ≤ 0.001)]
  rw [List.find?_eq_none.mpr (fun j _ => by
    simp only [decide_eq_true_eq, not_lt]
    have hmem : ∀ x ∈ (cxPcm.drop (j * 4)).take 16, x * x ≤ cxAmp * cxAmp := by
      intro x hx
      rcases cxPcm_mem x (List.mem_of_mem_drop (List.mem_of_mem_take hx)) with
        h | h
      · rw [h, zero_mul]
        exact mul_nonneg (le_of_lt cxAmp_pos) (le_of_lt cxAmp_pos)
      · rw [h]
    have hlen : (((cxPcm.drop (j * 4)).take 16).length : ℚ) ≤ 16 := by
      have := List.length_take_le 16 (cxPcm.drop (j * 4))
      exact_mod_cast this
    have hss := sumSquares_le _ _ hmem
    have hcc : cxAmp * cxAmp = 1 / 4000000 := by unfold cxAmp; norm_num
    have hssle : sumSquares ((cxPcm.drop (j * 4)).take 16) ≤ 16 * (1 / 4000000) := by
      rw [hcc] at hss
      calc sumSquares ((cxPcm.drop (j * 4)).take 16)
          ≤ (((cxPcm.drop (j * 4)).take 16).length : ℚ) * (1 / 4000000) := hss
        _ ≤ 16 * (1 / 4000000) := by
            exact mul_le_mul_of_nonneg_right hlen (by norm_num)
    linarith)]

theorem goertzelRaw_pre_eq (sF : ℚ → ℚ) (samples : List ℚ) :
    goertzelRaw cosSq sF samples ((PREAMBLE_LOW : ℕ) : ℚ) ((800 : ℕ) : ℚ)
      = goertzelRaw cosSq sF samples ((PREAMBLE_HIGH : ℕ) : ℚ) ((800 : ℕ) : ℚ) := by
  simp only [goertzelRaw]
  rcases Nat.eq_zero_or_pos samples.length with h0 | hpos
  · rw [h0,
      show ((0 : ℕ) : ℚ) * ((PREAMBLE_LOW : ℕ) : ℚ) / ((800 : ℕ) : ℚ) = 0 by
        norm_num,
      show ((0 : ℕ) : ℚ) * ((PREAMBLE_HIGH : ℕ) : ℚ) / ((800 : ℕ) : ℚ) = 0 by
        norm_num]
  · have hNq : ((samples.length : ℕ) : ℚ) ≠ 0 := by
      exact_mod_cast Nat.pos_iff_ne_zero.mp hpos
    have harg : ((samples.length : ℕ) : ℚ) * ((PREAMBLE_HIGH : ℕ) : ℚ)
          / ((800 : ℕ) : ℚ)
        = ((samples.length : ℕ) : ℚ) * ((PREAMBLE_LOW : ℕ) : ℚ)
            / ((800 : ℕ) : ℚ) + ((5 * samples.length : ℤ) : ℚ) := by
      simp only [PREAMBLE_LOW, PREAMBLE_HIGH]
      push_cast
      ring
    have hk : jsRound (((samples.length : ℕ) : ℚ) * ((PREAMBLE_HIGH : ℕ) : ℚ)
          / ((800 : ℕ) : ℚ))
        = jsRound (((samples.length : ℕ) : ℚ) * ((PREAMBLE_LOW : ℕ) : ℚ)
            / ((800 : ℕ) : ℚ)) + (5 * samples.length : ℤ) := by
      rw [harg]
      exact jsRound_add_int _ _
    rw [hk]
    have hw : (2 * piQ * ((jsRound (((samples.length : ℕ) : ℚ)
            * ((PREAMBLE_LOW : ℕ) : ℚ) / ((800 : ℕ) : ℚ))
          + (5 * samples.length : ℤ) : ℤ) : ℚ)) / ((samples.length : ℕ) : ℚ)
        = (2 * piQ * ((jsRound (((samples.length : ℕ) : ℚ)
            * ((PREAMBLE_LOW : ℕ) : ℚ) / ((800 : ℕ) : ℚ)) : ℤ) : ℚ))
              / ((samples.length : ℕ) : ℚ) + 2 * piQ * ((5 : ℤ) : ℚ) := by
      push_cast
      field_simp
      ring
    rw [hw, cosSq_periodic _ 5]

theorem preambleScore_cx_zero (sF : ℚ → ℚ) (pcm : List ℚ) (ws pos : ℕ) :
    preambleScore cosSq sF pcm 800 ws pos = 0 := by
  unfold preambleScore
  apply foldl_fixed
  intro t _
  simp only []
  by_cases ht : t % 2 = 0
  · rw [if_pos ht, if_pos ht, goertzelRaw_pre_eq, if_neg (lt_irrefl _)]
  · rw [if_neg ht, if_neg ht, goertzelRaw_pre_eq, if_neg (lt_irrefl _)]

theorem detectPreamble_cx : detectPreamble cosSq id cxPcm 800 = 768 := by
  have hptd : flr (PREAMBLE_TONE_DURATION * ((800 : ℕ) : ℚ)) = 96 :=
    flr_num _ _ (by rw [PREAMBLE_TONE_DURATION]; push_cast; norm_num)
  unfold detectPreamble
  simp only [findEnergyOnset_cx, hptd]
  rw [foldl_fixed _ _ ((0 : ℚ), (-1 : ℤ)) (fun j _ => by
    simp only [preambleScore_cx_zero]
    rw [if_neg (lt_irrefl _)])]
  rw [if_neg (by norm_num [PREAMBLE_CYCLES] :
    ¬ ((0 : ℚ) > ((PREAMBLE_CYCLES * 2 : ℕ) : ℚ) * 0.4))]
  rw [show PREAMBLE_CYCLES = 4 from rfl]
  push_cast

/-- Value of one Hann-windowed sample of the constant counterexample window:
zero at both window ends (`cosSq` is `1` there, as the real cosine is), and
the full amplitude everywhere else (`cosSq` is `-1` there; the real Hann
window varies in `(0,1]` instead, which only scales the same argmax). -/
theorem hannX (i : ℕ) (hi : i < 64) :
    (List.replicate 64 cxAmp).getD i 0
        * (0.5 * (1 - cosSq (2 * piQ * (i : ℚ) / (((64 : ℕ) : ℚ) - 1))))
      = if i % 63 = 0 then 0 else cxAmp := by
  have hg : (List.replicate 64 cxAmp).getD i 0 = cxAmp := by
    rw [List.getD_eq_getElem _ _ (by simpa using hi), List.getElem_replicate]
  have h64 : (((64 : ℕ) : ℚ) - 1) = ((63 : ℕ) : ℚ) := by push_cast; norm_num
  rw [hg, h64, cosSq_div_nat i 63 (by norm_num)]
  by_cases h : i % 63 = 0
  · rw [if_pos h, if_pos h]
    ring
  · rw [if_neg h, if_neg h]
    ring

/-- One step of the Goertzel recurrence of the counterexample window at a
DC-aliased bin (`coeff = 2·1`). -/
def hannStepPos (s : ℚ × ℚ) (i : ℕ) : ℚ × ℚ :=
  ((List.replicate 64 cxAmp).getD i 0
      * (0.5 * (1 - cosSq (2 * piQ * (i : ℚ) / (((64 : ℕ) : ℚ) - 1))))
    + 2 * (1 : ℚ) * s.1 - s.2, s.1)

/-- One step of the Goertzel recurrence of the counterexample window at a
non-aliased bin (`coeff = 2·(-1)`). -/
def hannStepNeg (s : ℚ × ℚ) (i : ℕ) : ℚ × ℚ :=
  ((List.replicate 64 cxAmp).getD i 0
      * (0.5 * (1 - cosSq (2 * piQ * (i : ℚ) / (((64 : ℕ) : ℚ) - 1))))
    + 2 * (-1 : ℚ) * s.1 - s.2, s.1)

theorem fold_cx_pos_aux :
    ∀ m, 1 ≤ m → m ≤ 63 →
    List.foldl hannStepPos (0, 0) (List.range m)
      = (cxAmp * ((m : ℚ) - 1) * (m : ℚ) / 2,
         cxAmp * ((m : ℚ) - 2) * ((m : ℚ) - 1) / 2) := by
  intro m
  induction m with
  | zero => intro h _; omega
  | succ k ih =>
      intro h1 h2
      rcases Nat.lt_or_ge 0 k with hk | hk
      · rw [List.range_succ, List.foldl_append, ih (by omega) (by omega),
          List.foldl_cons, List.foldl_nil]
        unfold hannStepPos
        rw [hannX k (by omega), if_neg (by omega : ¬ (k % 63 = 0))]
        simp only [Prod.mk.injEq]
        constructor
        · push_cast
          ring
        · push_cast
          ring
      · have hk0 : k = 0 := by omega
        subst hk0
        rw [show List.range 1 = [0] from rfl, List.foldl_cons, List.foldl_nil]
        unfold hannStepPos
        rw [hannX 0 (by norm_num), if_pos (by norm_num : (0 : ℕ) % 63 = 0)]
        simp only [Prod.mk.injEq]
        constructor
        · push_cast
          ring
        · push_cast
          ring

theorem fold_cx_pos :
    List.foldl hannStepPos (0, 0) (List.range 64)
      = (2015 * cxAmp, 1953 * cxAmp) := by
  have h := fold_cx_pos_aux 63 (by norm_num) (le_refl 63)
  rw [(by rw [List.range_succ] : List.range 64 = List.range 63 ++ [63]),
    List.foldl_append, h, List.foldl_cons, List.foldl_nil]
  unfold hannStepPos
  rw [hannX 63 (by norm_num), if_pos (by norm_num : (63 : ℕ) % 63 = 0)]
  simp only [Prod.mk.injEq]
  constructor
  · push_cast
    ring
  · push_cast
    ring

theorem fold_cx_neg_aux :
    ∀ j, 1 ≤ j → j ≤ 31 →
    List.foldl hannStepNeg (0, 0) (List.range (2 * j))
      = ((j : ℚ) * cxAmp, -(((j : ℚ) - 1) * cxAmp)) := by
  intro j
  induction j with
  | zero => intro h _; omega
  | succ k ih =>
      intro h1 h2
      rcases Nat.lt_or_ge 0 k with hk | hk
      · rw [show 2 * (k + 1) = (2 * k + 1) + 1 by ring,
          List.range_succ, (by rw [List.range_succ] :
            List.range (2 * k + 1) = List.range (2 * k) ++ [2 * k]),
          List.foldl_append, List.foldl_append, ih (by omega) (by omega),
          List.foldl_cons, List.foldl_nil, List.foldl_cons, List.foldl_nil]
        unfold hannStepNeg
        rw [hannX (2 * k) (by omega), if_neg (by omega : ¬ (2 * k % 63 = 0))]
        rw [hannX (2 * k + 1) (by omega),
          if_neg (by omega : ¬ ((2 * k + 1) % 63 = 0))]
        simp only [Prod.mk.injEq]
        constructor
        · push_cast
          ring
        · push_cast
          ring
      · have hk0 : k = 0 := by omega
        subst hk0
        rw [show List.range (2 * 1) = [0, 1] from rfl, List.foldl_cons,
          List.foldl_cons, List.foldl_nil]
        unfold hannStepNeg
        rw [hannX 0 (by norm_num), if_pos (by norm_num : (0 : ℕ) % 63 = 0)]
        rw [hannX 1 (by norm_num), if_neg (by norm_num : ¬ ((1 : ℕ) % 63 = 0))]
        simp only [Prod.mk.injEq]
        constructor
        · push_cast
          ring
        · push_cast
          ring

theorem fold_cx_neg :
    List.foldl hannStepNeg (0, 0) (List.range 64)
      = (31 * cxAmp, -(31 * cxAmp)) := by
  have h := fold_cx_neg_aux 31 (by norm_num) (le_refl 31)
  rw [show (2 * 31 : ℕ) = 62 from rfl] at h
  rw [(by rw [List.range_succ] : List.range 64 = List.range 63 ++ [63]),
    (by rw [List.range_succ] :
      List.range 63 = List.range 62 ++ [62]),
    List.foldl_append, List.foldl_append, h,
    List.foldl_cons, List.foldl_nil, List.foldl_cons, List.foldl_nil]
  unfold hannStepNeg
  rw [hannX 62 (by norm_num), if_neg (by norm_num : ¬ ((62 : ℕ) % 63 = 0))]
  rw [hannX 63 (by norm_num), if_pos (by norm_num : (63 : ℕ) % 63 = 0)]
  simp only [Prod.mk.injEq]
  constructor
  · push_cast
    ring
  · push_cast
    ring

/-- Goertzel-with-Hann magnitudes of the constant counterexample window:
the DC-aliased bins (nibbles `n ≡ 3 mod 4`, since
`round(64·(1000+200n)/800) = 80+16n ≡ 0 mod 64` exactly for those `n`)
respond with a positive magnitude, all other bins respond with `0`. -/
theorem goertzelHann_cx (n : ℕ) (hn : n < 16) :
    goertzelHann cosSq id (List.replicate 64 cxAmp)
      ((NIBBLE_FREQS.getD n 0 : ℕ) : ℚ) ((800 : ℕ) : ℚ)
      = if n % 4 = 3 then 3844 * cxAmp ^ 2 else 0 := by
  have htab : NIBBLE_FREQS.getD n 0 = 1000 + 200 * n := nibble_table_fin ⟨n, hn⟩
  simp only [goertzelHann, List.length_replicate]
  rw [htab]
  rw [show ((64 : ℕ) : ℚ) * ((1000 + 200 * n : ℕ) : ℚ) / ((800 : ℕ) : ℚ)
    = ((80 + 16 * n : ℕ) : ℚ) by push_cast; ring]
  rw [jsRound_natCast, Int.cast_natCast]
  rw [cosSq_div_nat (80 + 16 * n) 64 (by norm_num)]
  by_cases h : n % 4 = 3
  · rw [if_pos (by omega : (80 + 16 * n) % 64 = 0), if_pos h]
    rw [show (fun (s : ℚ × ℚ) (i : ℕ) =>
        ((List.replicate 64 cxAmp).getD i 0
            * (0.5 * (1 - cosSq (2 * piQ * (i : ℚ) / (((64 : ℕ) : ℚ) - 1))))
          + 2 * (1 : ℚ) * s.1 - s.2, s.1)) = hannStepPos from rfl]
    rw [fold_cx_pos]
    show ((2015 * cxAmp) * (2015 * cxAmp) + (1953 * cxAmp) * (1953 * cxAmp)
      - 2 * 1 * (2015 * cxAmp) * (1953 * cxAmp) : ℚ) = 3844 * cxAmp ^ 2
    ring
  · rw [if_neg (by omega : ¬ ((80 + 16 * n) % 64 = 0)), if_neg h]
    rw [show (fun (s : ℚ × ℚ) (i : ℕ) =>
        ((List.replicate 64 cxAmp).getD i 0
            * (0.5 * (1 - cosSq (2 * piQ * (i : ℚ) / (((64 : ℕ) : ℚ) - 1))))
          + 2 * (-1 : ℚ) * s.1 - s.2, s.1)) = hannStepNeg from rfl]
    rw [fold_cx_neg]
    show ((31 * cxAmp) * (31 * cxAmp) + (-(31 * cxAmp)) * (-(31 * cxAmp))
      - 2 * (-1) * (31 * cxAmp) * (-(31 * cxAmp)) : ℚ) = 0
    ring

/-- One step of the best/second-best scan over the 16 nibble bins, on the
counterexample window. -/
def bestStep (b : ℚ × ℚ × ℕ) (n : ℕ) : ℚ × ℚ × ℕ :=
  if goertzelHann cosSq id (List.replicate 64 cxAmp)
      ((NIBBLE_FREQS.getD n 0 : ℕ) : ℚ) ((800 : ℕ) : ℚ) > b.1 then
    (goertzelHann cosSq id (List.replicate 64 cxAmp)
        ((NIBBLE_FREQS.getD n 0 : ℕ) : ℚ) ((800 : ℕ) : ℚ), b.1, n)
  else if goertzelHann cosSq id (List.replicate 64 cxAmp)
      ((NIBBLE_FREQS.getD n 0 : ℕ) : ℚ) ((800 : ℕ) : ℚ) > b.2.1 then
    (b.1, goertzelHann cosSq id (List.replicate 64 cxAmp)
        ((NIBBLE_FREQS.getD n 0 : ℕ) : ℚ) ((800 : ℕ) : ℚ), b.2.2)
  else b

theorem best_cx :
    List.foldl bestStep (0, 0, 0) (List.range 16)
      = (3844 * cxAmp ^ 2, 3844 * cxAmp ^ 2, 3) := by
  have st1 : List.foldl bestStep (0, 0, 0) [0, 1, 2] = (0, 0, 0) := by
    apply foldl_fixed
    intro x hx
    unfold bestStep
    simp only [List.mem_cons, List.not_mem_nil, or_false] at hx
    rcases hx with rfl | rfl | rfl
    · rw [goertzelHann_cx 0 (by norm_num)]
      norm_num
    · rw [goertzelHann_cx 1 (by norm_num)]
      norm_num
    · rw [goertzelHann_cx 2 (by norm_num)]
      norm_num
  have st2 : List.foldl bestStep (0, 0, 0) [3]
      = (3844 * cxAmp ^ 2, 0, 3) := by
    rw [List.foldl_cons, List.foldl_nil]
    unfold bestStep
    rw [goertzelHann_cx 3 (by norm_num)]
    norm_num [cxAmp]
  have st3 : List.foldl bestStep (3844 * cxAmp ^ 2, 0, 3) [4, 5, 6]
      = (3844 * cxAmp ^ 2, 0, 3) := by
    apply foldl_fixed
    intro x hx
    unfold bestStep
    simp only [List.mem_cons, List.not_mem_nil, or_false] at hx
    rcases hx with rfl | rfl | rfl
    · rw [goertzelHann_cx 4 (by norm_num)]
      norm_num [cxAmp]
    · rw [goertzelHann_cx 5 (by norm_num)]
      norm_num [cxAmp]
    · rw [goertzelHann_cx 6 (by norm_num)]
      norm_num [cxAmp]
  have st4 : List.foldl bestStep (3844 * cxAmp ^ 2, 0, 3) [7]
      = (3844 * cxAmp ^ 2, 3844 * cxAmp ^ 2, 3) := by
    rw [List.foldl_cons, List.foldl_nil]
    unfold bestStep
    rw [goertzelHann_cx 7 (by norm_num)]
    norm_num [cxAmp]
  have st5 : List.foldl bestStep (3844 * cxAmp ^ 2, 3844 * cxAmp ^ 2, 3)
      [8, 9, 10, 11, 12, 13, 14, 15]
      = (3844 * cxAmp ^ 2, 3844 * cxAmp ^ 2, 3) := by
    apply foldl_fixed
    intro x hx
    unfold bestStep
    simp only [List.mem_cons, List.not_mem_nil, or_false] at hx
    rcases hx with rfl | rfl | rfl | rfl | rfl | rfl | rfl | rfl
    · rw [goertzelHann_cx 8 (by norm_num)]
      norm_num [cxAmp]
    · rw [goertzelHann_cx 9 (by norm_num)]
      norm_num [cxAmp]
    · rw [goertzelHann_cx 10 (by norm_num)]
      norm_num [cxAmp]
    · rw [goertzelHann_cx 11 (by norm_num)]
      norm_num [cxAmp]
    · rw [goertzelHann_cx 12 (by norm_num)]
      norm_num [cxAmp]
    · rw [goertzelHann_cx 13 (by norm_num)]
      norm_num [cxAmp]
    · rw [goertzelHann_cx 14 (by norm_num)]
      norm_num [cxAmp]
    · rw [goertzelHann_cx 15 (by norm_num)]
      norm_num [cxAmp]
  rw [show List.range 16
    = [0, 1, 2] ++ ([3] ++ ([4, 5, 6] ++ ([7] ++ [8, 9, 10, 11, 12, 13, 14, 15])))
    from rfl]
  rw [List.foldl_append, st1, List.foldl_append, st2, List.foldl_append, st3,
    List.foldl_append, st4, st5]

theorem nibbleStep_cx0 :
    nibbleStep cosSq id cxPcm 800 768 (List.replicate 1 0, ([], 0)) 0
      = ([48], ([0], 1 / 2)) := by
  have hss : flr (TONE_STEP * ((800 : ℕ) : ℚ)) = 96 :=
    flr_num _ _ (by rw [TONE_STEP]; push_cast; norm_num)
  have hsk : flr ((0.015 : ℚ) * ((800 : ℕ) : ℚ)) = 12 :=
    flr_num _ _ (by push_cast; norm_num)
  have htd : flr (TONE_DURATION * ((800 : ℕ) : ℚ)) = 80 :=
    flr_num _ _ (by rw [TONE_DURATION]; push_cast; norm_num)
  have h20 : flr ((0.020 : ℚ) * ((800 : ℕ) : ℚ)) = 16 :=
    flr_num _ _ (by push_cast; norm_num)
  have hguard : ¬ (nibbleWindowEnd 800 768 0 > ((cxPcm.length : ℕ) : ℤ)) := by
    unfold nibbleWindowEnd
    rw [hss, hsk, htd, h20, cxPcm_length]
    decide
  simp only [nibbleStep]
  rw [if_neg hguard, hss, hsk, htd, h20]
  rw [show ((768 : ℤ) + ((0 * 96 + 12 : ℕ) : ℤ)).toNat = 780 by decide]
  rw [show (80 - 16 : ℕ) = 64 from rfl]
  rw [cxPcm_window]
  rw [show (fun (b : ℚ × ℚ × ℕ) (n : ℕ) =>
      if goertzelHann cosSq id (List.replicate 64 cxAmp)
          ((NIBBLE_FREQS.getD n 0 : ℕ) : ℚ) ((800 : ℕ) : ℚ) > b.1 then
        (goertzelHann cosSq id (List.replicate 64 cxAmp)
            ((NIBBLE_FREQS.getD n 0 : ℕ) : ℚ) ((800 : ℕ) : ℚ), b.1, n)
      else if goertzelHann cosSq id (List.replicate 64 cxAmp)
          ((NIBBLE_FREQS.getD n 0 : ℕ) : ℚ) ((800 : ℕ) : ℚ) > b.2.1 then
        (b.1, goertzelHann cosSq id (List.replicate 64 cxAmp)
            ((NIBBLE_FREQS.getD n 0 : ℕ) : ℚ) ((800 : ℕ) : ℚ), b.2.2)
      else b) = bestStep from rfl]
  rw [best_cx]
  norm_num [cxAmp, Nat.shiftLeft_eq]

theorem nibbleStep_cx1 :
    nibbleStep cosSq id cxPcm 800 768 ([48], ([0], 1 / 2)) 1
      = ([48], ([0, 0], 1 / 2)) := by
  have hss : flr (TONE_STEP * ((800 : ℕ) : ℚ)) = 96 :=
    flr_num _ _ (by rw [TONE_STEP]; push_cast; norm_num)
  have hsk : flr ((0.015 : ℚ) * ((800 : ℕ) : ℚ)) = 12 :=
    flr_num _ _ (by push_cast; norm_num)
  have htd : flr (TONE_DURATION * ((800 : ℕ) : ℚ)) = 80 :=
    flr_num _ _ (by rw [TONE_DURATION]; push_cast; norm_num)
  have h20 : flr ((0.020 : ℚ) * ((800 : ℕ) : ℚ)) = 16 :=
    flr_num _ _ (by push_cast; norm_num)
  have hguard : nibbleWindowEnd 800 768 1 > ((cxPcm.length : ℕ) : ℤ) := by
    unfold nibbleWindowEnd
    rw [hss, hsk, htd, h20, cxPcm_length]
    decide
  simp only [nibbleStep]
  rw [if_pos hguard]
  rfl

/-- Full decode of the counterexample capture: byte 0's high nibble is
decoded from the in-bounds constant window as nibble 3 (`data = [48]`),
nibble 1's window overruns, so byte 0 is flagged — twice, once for low
confidence (`1/2 < 0.55`) and once by the overrun push — yet the byte is
not zero. -/
theorem decodePCMCore_cx :
    decodePCMCore cosSq id cxPcm 800 1
      = ⟨[48], 1 / 4, [0, 0]⟩ := by
  simp only [decodePCMCore]
  rw [normalize_cx, detectPreamble_cx]
  rw [show List.range (1 * 2) = [0, 1] from rfl]
  rw [List.foldl_cons, nibbleStep_cx0, List.foldl_cons, nibbleStep_cx1,
    List.foldl_nil]
  show (⟨[48], (1 / 2 : ℚ) / ((1 * 2 : ℕ) : ℚ), [0, 0]⟩ : AcousticDecodeResult)
    = ⟨[48], 1 / 4, [0, 0]⟩
  norm_num

/-- Counterexample to C7 as stated: a concrete capture (`cxPcm`, 844 samples
at 800 Hz, one expected byte) on which nibble 1's analysis window runs past
the end of the normalized buffer, byte `1/2 = 0` is flagged in
errorPositions, but the byte is NOT left zero: its high nibble was decoded
from the in-bounds window before the overrun, giving `data.getD 0 0 = 48`.
The transcendental parameters are instantiated with the sign-quantized
cosine `cosSq` (2π-periodic with `cos 0 = 1`, like the real cosine, which
makes the constant window resolve to the DC-aliased bin 3) and `id` for
`Math.sqrt` (monotone with `sqrt 0 = 0`). -/
theorem C7_overrun_counterexample :
    nibbleWindowEnd 800 (detectPreamble cosSq id (normalize cxPcm) 800) 1
      > ((normalize cxPcm).length : ℤ) ∧
    1 / 2 ∈ (decodePCMCore cosSq id cxPcm 800 1).errorPositions ∧
    (decodePCMCore cosSq id cxPcm 800 1).data.getD (1 / 2) 0 ≠ 0 := by
  refine ⟨?_, ?_, ?_⟩
  · rw [normalize_cx, detectPreamble_cx]
    have hss : flr (TONE_STEP * ((800 : ℕ) : ℚ)) = 96 :=
      flr_num _ _ (by rw [TONE_STEP]; push_cast; norm_num)
    have hsk : flr ((0.015 : ℚ) * ((800 : ℕ) : ℚ)) = 12 :=
      flr_num _ _ (by push_cast; norm_num)
    have htd : flr (TONE_DURATION * ((800 : ℕ) : ℚ)) = 80 :=
      flr_num _ _ (by rw [TONE_DURATION]; push_cast; norm_num)
    have h20 : flr ((0.020 : ℚ) * ((800 : ℕ) : ℚ)) = 16 :=
      flr_num _ _ (by push_cast; norm_num)
    unfold nibbleWindowEnd
    rw [hss, hsk, htd, h20, cxPcm_length]
    decide
  · rw [decodePCMCore_cx]
    decide
  · rw [decodePCMCore_cx]
    decide

end EchoSign
